import Mathlib

/-!
Verification development for the godot-rust bindings generator
(`bindings_generator/src/api.rs`): the schema model (`Api`, `GodotClass`,
`Enum`, ...), the normalization passes (`strip_leading_underscores`,
`Enum::strip_common_prefix`), the hierarchy queries (`find_class`,
`class_inherits`, `base_class`), the singleton thread-safety table, and
the type classifier `Ty::from_src`.

Rust strings are modelled as Lean `String` / `List Char` (the inputs of
interest are ASCII, and the character classification functions are used
in their ASCII meaning).  A Rust function that can panic is modelled as
returning `Option`, with `none` standing for the panic.
-/

namespace Godot

/-! ## Case conversion (embedding of the `heck` 0.3 crate)

`heck` splits a string into words: maximal alphanumeric runs are further
split before an uppercase letter that follows a lowercase one, and
before the last uppercase letter of an uppercase run followed by a
lowercase letter.  `to_snake_case` lowercases the words and joins them
with `_`; `to_camel_case` capitalizes each word and concatenates. -/

inductive WordMode where
  | boundary
  | lowercase
  | uppercase
deriving DecidableEq

/-- Maximal alphanumeric runs of a character list (the segments produced
by Rust's `split(|c| !c.is_alphanumeric())`, with empty segments dropped:
they contribute no words). -/
def alnumRunsAux : List Char → List Char → List (List Char)
  | acc, [] => if acc = [] then [] else [acc.reverse]
  | acc, c :: rest =>
    if c.isAlphanum then alnumRunsAux (c :: acc) rest
    else if acc = [] then alnumRunsAux [] rest
    else acc.reverse :: alnumRunsAux [] rest

/-- Split one alphanumeric run into `heck` words (the `WordMode` scanner
of `heck`'s `transform`). -/
def subwordsAux : WordMode → List Char → List Char → List (List Char)
  | _, acc, [] => [acc.reverse]
  | mode, acc, c :: rest =>
    match rest with
    | [] => [(c :: acc).reverse]
    | next :: _ =>
      let nextMode :=
        if c.isLower then WordMode.lowercase
        else if c.isUpper then WordMode.uppercase
        else mode
      if nextMode = WordMode.lowercase && next.isUpper then
        (c :: acc).reverse :: subwordsAux WordMode.boundary [] rest
      else if mode = WordMode.uppercase && c.isUpper && next.isLower then
        acc.reverse :: subwordsAux WordMode.boundary [c] rest
      else
        subwordsAux nextMode (c :: acc) rest

def heckWords (s : String) : List (List Char) :=
  ((alnumRunsAux [] s.toList).map (subwordsAux WordMode.boundary [])).flatten

def to_snake_case (s : String) : String :=
  String.intercalate "_" ((heckWords s).map (fun w => String.mk (w.map Char.toLower)))

def to_camel_case (s : String) : String :=
  String.join ((heckWords s).map (fun w =>
    match w with
    | [] => ""
    | c :: rest => String.mk (c.toUpper :: rest.map Char.toLower)))

/-! ## String helpers mirroring the `&str` operations used by the source -/

/-- `p.isPrefixOf s` as a plain Boolean function: Rust `str::starts_with`. -/
def startsWithList : List Char → List Char → Bool
  | [], _ => true
  | _ :: _, [] => false
  | a :: as, b :: bs => a = b && startsWithList as bs

/-- Rust `str::split("::")` (the only separator the source splits on). -/
def splitColonsAux : List Char → List Char → List (List Char)
  | acc, [] => [acc.reverse]
  | acc, [c] => [(c :: acc).reverse]
  | acc, c :: d :: rest =>
    if c = ':' && d = ':' then acc.reverse :: splitColonsAux [] rest
    else splitColonsAux (c :: acc) (d :: rest)

def splitColons (l : List Char) : List (List Char) :=
  splitColonsAux [] l

/-- No two adjacent colons: the string contains no `::` separator.
Every piece produced by `splitColons` satisfies this, which is what
bounds the recursion depth of `Ty::from_src` at 2. -/
def NoSep (l : List Char) : Prop :=
  List.Chain' (fun a b => ¬(a = ':' ∧ b = ':')) l

/-- Validity check of `proc_macro2::Ident::new`, reached through
`format_ident!("{}", s)`: the string must be a nonempty identifier
(first character alphabetic or `_`, remaining ones alphanumeric or `_`,
and not the lone underscore).  `format_ident!` panics otherwise.
(ASCII approximation; the further restriction that `syn`'s path parser
would place on reserved words in segments is not modelled.) -/
def is_rust_ident (s : String) : Bool :=
  match s.toList with
  | [] => false
  | c :: rest =>
    (c.isAlpha || c = '_') && rest.all (fun d => d.isAlphanum || d = '_') && s ≠ "_"

/-! ## The type classifier `Ty` and `Ty::from_src` -/

inductive Ty where
  | Void
  | String
  | F64
  | I64
  | Bool
  | Vector2
  | Vector3
  | Vector3Axis
  | Quat
  | Transform
  | Transform2D
  | Rect2
  | Plane
  | Basis
  | Color
  | NodePath
  | Variant
  | Aabb
  | Rid
  | VariantArray
  | Dictionary
  | ByteArray
  | StringArray
  | Vector2Array
  | Vector3Array
  | ColorArray
  | Int32Array
  | Float32Array
  | Result
  | VariantType
  | VariantOperator
  | Enum (path : List String)
  | Object (path : List String)
deriving DecidableEq

/-- The exact-match arms of the `match` in `Ty::from_src`, in source
order (all keys are distinct, so first-match lookup is the same as the
Rust `match`). -/
def builtinTable : List (String × Ty) :=
  [("void", Ty.Void),
   ("String", Ty.String),
   ("float", Ty.F64),
   ("int", Ty.I64),
   ("bool", Ty.Bool),
   ("Vector2", Ty.Vector2),
   ("Vector3", Ty.Vector3),
   ("Quat", Ty.Quat),
   ("Transform", Ty.Transform),
   ("Transform2D", Ty.Transform2D),
   ("Rect2", Ty.Rect2),
   ("Plane", Ty.Plane),
   ("Basis", Ty.Basis),
   ("Color", Ty.Color),
   ("NodePath", Ty.NodePath),
   ("Variant", Ty.Variant),
   ("AABB", Ty.Aabb),
   ("RID", Ty.Rid),
   ("Array", Ty.VariantArray),
   ("Dictionary", Ty.Dictionary),
   ("PoolByteArray", Ty.ByteArray),
   ("PoolStringArray", Ty.StringArray),
   ("PoolVector2Array", Ty.Vector2Array),
   ("PoolVector3Array", Ty.Vector3Array),
   ("PoolColorArray", Ty.ColorArray),
   ("PoolIntArray", Ty.Int32Array),
   ("PoolRealArray", Ty.Float32Array),
   ("enum.Error", Ty.Result),
   ("enum.Variant::Type", Ty.VariantType),
   ("enum.Variant::Operator", Ty.VariantOperator),
   ("enum.Vector3::Axis", Ty.Vector3Axis)]

/-- `Ty::from_src`, fuel-indexed.  The recursion of the source
(`Ty::from_src(&class_name)` inside the `enum.` arm) recurses on the
first `::`-separated piece of the string after `enum.`; that piece
contains no `::`, so its own `enum.` arm can never take the recursive
branch and depth 2 is exact (`fromSrcAux_fuel_stable` below certifies
this).  `none` models a panic: the `split.next().unwrap()` on a string
without `::`, or `format_ident!` on an invalid identifier. -/
def fromSrcAux : Nat → String → Option Ty
  | 0, _ => none
  | fuel + 1, src =>
    match builtinTable.lookup src with
    | some t => some t
    | none =>
      if startsWithList "enum.".toList src.toList then
        match splitColons (src.toList.drop 5) with
        | class_name :: variant :: _ =>
          let name := to_camel_case (String.mk variant)
          let module := to_snake_case (String.mk class_name)
          if is_rust_ident name && is_rust_ident module then
            match fromSrcAux fuel (String.mk class_name) with
            | some (Ty.Enum _) => some (Ty.Enum ["crate", "generated", module, name])
            | some (Ty.Object _) => some (Ty.Enum ["crate", "generated", module, name])
            | some _ => some (Ty.Enum [module, name])
            | none => none
          else none
        | _ => none
      else
        let module := to_snake_case src
        if is_rust_ident module && is_rust_ident src then
          some (Ty.Object ["crate", "generated", module, src])
        else none

def Ty.from_src :=
  fromSrcAux 2

/-! ## The schema model

`HashMap`/`HashSet` fields are modelled as association lists / lists:
the source only ever iterates them or tests membership, and (as proved
below for the enum pass) the results are independent of iteration
order. -/

structure Property where
  name : String
  type_ : String
  getter : String
  setter : String
  index : Int
deriving DecidableEq

structure GodotArgument where
  name : String
  ty : String
  has_default_value : Bool
  default_value : String
deriving DecidableEq

structure GodotMethod where
  name : String
  return_type : String
  is_editor : Bool
  is_noscript : Bool
  is_const : Bool
  is_reverse : Bool
  is_virtual : Bool
  has_varargs : Bool
  arguments : List GodotArgument
deriving DecidableEq

structure Enum where
  name : String
  values : List (String × Int)
deriving DecidableEq

structure GodotClass where
  name : String
  base_class : String
  api_type : String
  singleton : Bool
  is_reference : Bool
  instantiable : Bool
  properties : List Property
  methods : List GodotMethod
  enums : List Enum
  constants : List (String × Int)
deriving DecidableEq

structure Api where
  classes : List GodotClass
  api_underscore : List String
deriving DecidableEq

/-! ## `Enum::strip_common_prefix`

The loop repeatedly takes the first variant's leading
underscore-terminated segment and, when every variant starts with it,
removes it from all variants.  Afterwards each name is rebuilt, with a
`_` prepended when it starts with a digit; an empty name at that point
is a panic (`expect("name should not be empty")`).  The rebuilt pairs
are then collected into a `HashMap`, which deduplicates colliding
names — of two variants whose rebuilt names are equal, only one binding
survives.  The loop is written with fuel: every iteration removes at
least two characters from the first variant's name, so fuel equal to
that name's length can never run out (`stripLoopFuel_post` below needs
only this much). -/

/-- Rust's `chars().enumerate().find_map(...)`: index of the first `_`. -/
def findUnd : List Char → Option Nat
  | [] => none
  | c :: rest => if c = '_' then some 0 else (findUnd rest).map (· + 1)

/-- One rebuilt variant name: `_` prepended when it starts with a digit
(`char::is_numeric`), `none` when the name is empty (panic). -/
def digitFix : List Char → Option (List Char)
  | [] => none
  | c :: rest => some (if c.isDigit then '_' :: c :: rest else c :: rest)

/-- The `map` step of the final
`variants.into_iter().map(...).collect::<HashMap<_,_>>()`: panic check
and digit prefixing for every variant.  The `HashMap` key
deduplication of the `collect` itself is `collectPairs` below. -/
def rebuild : List (List Char × Int) → Option (List (List Char × Int))
  | [] => some []
  | (n, v) :: rest =>
    match digitFix n, rebuild rest with
    | some m, some ms => some ((m, v) :: ms)
    | _, _ => none

/-- The key deduplication of `.collect::<HashMap<_,_>>()`: inserting
into the map later overwrites earlier, so of several bindings with the
same name only the last one survives.  (The list order is the model's
stand-in for the map's absent iteration order; the surviving value of a
duplicated key is the last one in model order, as with `HashMap`
insertion order.) -/
def collectPairs : List (List Char × Int) → List (List Char × Int)
  | [] => []
  | p :: rest =>
    if rest.any (fun q => q.1 = p.1) then collectPairs rest
    else p :: collectPairs rest

/-- The `loop` of `strip_common_prefix`.  The caller guarantees the
variant list is nonempty (`values.len() > 1` guard), so the `[]` arm is
unreachable (Rust would panic on `variants[0]`). -/
def stripLoopFuel : Nat → List (List Char × Int) → List (List Char × Int)
  | 0, variants => variants
  | fuel + 1, variants =>
    match variants with
    | [] => variants
    | (v0, _) :: _ =>
      match findUnd v0 with
      | none => variants
      | some 0 => variants
      | some (i + 1) =>
        if variants.all (fun p => startsWithList (v0.take (i + 2)) p.1) then
          stripLoopFuel fuel (variants.map (fun p => (p.1.drop (i + 2), p.2)))
        else variants

def Enum.strip_common_prefix (e : Enum) : Option Enum :=
  if e.values.length ≤ 1 then some e
  else
    let variants := e.values.map (fun p => (p.1.toList, p.2))
    match rebuild (stripLoopFuel ((variants.headD ([], 0)).1.length) variants) with
    | some vs =>
      some { e with values := (collectPairs vs).map (fun p => (String.mk p.1, p.2)) }
    | none => none

/-! ## `Api` operations -/

def Api.find_class (api : Api) (name : String) : Option GodotClass :=
  api.classes.find? (fun c => c.name = name)

/-- `Api::class_inherits`, fuel-indexed: the source recursion has no
termination guarantee on cyclic base-class chains (it would recurse
forever), so `none` models "did not finish within `fuel` steps". -/
def Api.class_inheritsN (api : Api) : Nat → GodotClass → String → Option Bool
  | 0, _, _ => none
  | fuel + 1, c, base_class_name =>
    if c.base_class = base_class_name then some true
    else
      match api.find_class c.base_class with
      | some parent => api.class_inheritsN fuel parent base_class_name
      | none => some false

/-- `Api::class_inherits` returns `true`: some finite unfolding of the
recursion reaches the `return true`. -/
def Api.class_inherits (api : Api) (c : GodotClass) (base_class_name : String) : Prop :=
  ∃ fuel, api.class_inheritsN fuel c base_class_name = some true

/-- The `k`-th ancestor along the base-class chain (stepping through
`find_class` exactly as `class_inherits` does); `none` once the chain
has ended. -/
def Api.chainN (api : Api) : Nat → GodotClass → Option GodotClass
  | 0, c => some c
  | k + 1, c =>
    match api.find_class c.base_class with
    | some parent => api.chainN k parent
    | none => none

/-! ## `Api::strip_leading_underscores` -/

/-- One application of the `starts_with('_')` / `[1..]` strip. -/
def stripName (s : String) : String :=
  match s.toList with
  | '_' :: rest => String.mk rest
  | _ => s

def stripArg (a : GodotArgument) : GodotArgument :=
  { a with ty := stripName a.ty }

def stripMethod (m : GodotMethod) : GodotMethod :=
  { m with return_type := stripName m.return_type,
           arguments := m.arguments.map stripArg }

def stripOneClass (c : GodotClass) : GodotClass :=
  { c with name := stripName c.name,
           methods := c.methods.map stripMethod }

def Api.strip_leading_underscores (api : Api) : Api :=
  { classes := api.classes.map stripOneClass,
    api_underscore := api.api_underscore ++
      api.classes.filterMap (fun c =>
        match c.name.toList with
        | '_' :: rest => some (String.mk rest)
        | _ => none) }

/-! ## `GodotClass` queries -/

/-- `base_class_name`: `None` when the `base_class` field is empty. -/
def GodotClass.base_class_name (c : GodotClass) : Option String :=
  if c.base_class = "" then none else some c.base_class

/-- `GodotClass::base_class`: the outer `Option` models the
`expect("base class should exist")` panic (`none` = panic), the inner
one is the function's own `Option` return. -/
def GodotClass.base_class' (c : GodotClass) (api : Api) : Option (Option GodotClass) :=
  match c.base_class_name with
  | none => some none
  | some name =>
    match api.find_class name with
    | some k => some (some k)
    | none => none

/-- The deny-list of `is_singleton_thread_safe`, as the spec names it. -/
def denyList : List String :=
  ["VisualServer", "PhysicsServer", "Physics3DServer", "Physics2DServer"]

/-- `is_singleton_thread_safe`: `none` models the
`assert!(self.singleton)` panic on a non-singleton. -/
def GodotClass.is_singleton_thread_safe (c : GodotClass) : Option Bool :=
  if c.singleton then
    some (match c.name with
      | "VisualServer" | "PhysicsServer" | "Physics3DServer" | "Physics2DServer" => false
      | _ => true)
  else none

/-! ## Auxiliary definitions used by the statements below -/

/-- A class with the given name, base class and singleton flag and no
members (enough structure for the hierarchy and normalization claims). -/
def mkClass (name base : String) (single : Bool) : GodotClass :=
  ⟨name, base, "core", single, false, false, [], [], [], []⟩

/-- Decidable form of "no ancestor along the first `N` chain steps has
`c` itself as its base class" (step 0 is `c`, so this includes
`c.base_class ≠ c.name`). -/
def neverNamesSelf (api : Api) (N : Nat) (c : GodotClass) : Bool :=
  (List.range N).all (fun k =>
    match api.chainN k c with
    | some a => a.base_class != c.name
    | none => true)

/-- `name` starts with at most one underscore. -/
def noDoubleUnd (s : String) : Bool :=
  match s.toList with
  | '_' :: '_' :: _ => false
  | _ => true

/-- Some nonempty underscore-free segment `c` is, with its trailing
underscore `c_`, a common prefix of every variant name of the enum. -/
def CommonChunkOf (e : Enum) : Prop :=
  ∃ c : List Char, c ≠ [] ∧ '_' ∉ c ∧
    ∀ p ∈ e.values, startsWithList (c ++ ['_']) p.1.toList = true

/-- The loop's break condition: the first variant has no underscore, or
has it in first position, or not all variants share the first variant's
leading segment.  `stripLoopFuel` returns its argument unchanged exactly
on lists satisfying this. -/
def loopBreakB (vs : List (List Char × Int)) : Bool :=
  match vs with
  | [] => true
  | (v0, _) :: _ =>
    match findUnd v0 with
    | none => true
    | some 0 => true
    | some (i + 1) => ! vs.all (fun p => startsWithList (v0.take (i + 2)) p.1)

/-- A three-class chain A → B → C used as concrete input. -/
def api5 : Api :=
  Api.mk [mkClass "A" "B" false, mkClass "B" "C" false, mkClass "C" "" false] []

/-- Two classes whose names strip to each other's names. -/
def api7c : Api :=
  Api.mk [mkClass "_Foo" "" false, mkClass "__Foo" "" false] []

/-- One doubly-underscored class. -/
def api4c : Api :=
  Api.mk [mkClass "__Foo" "" false] []

example : to_snake_case "UnknownThing" = "unknown_thing" := by decide
example : to_camel_case "SomeEnum" = "SomeEnum" := by decide
example : Ty.from_src "Vector3" = some Ty.Vector3 := by decide
example : Ty.from_src "enum.Foo" = none := by decide
example : Ty.from_src "Node" = some (Ty.Object ["crate", "generated", "node", "Node"]) := by decide
example : Ty.from_src "enum.UnknownThing::SomeEnum"
    = some (Ty.Enum ["crate", "generated", "unknown_thing", "SomeEnum"]) := by decide
example : Ty.from_src "enum.Transform::SomeEnum"
    = some (Ty.Enum ["transform", "SomeEnum"]) := by decide

example : Ty.from_src "enum.Error" = some Ty.Result := by decide
example : Ty.from_src "enum.Variant::Type" = some Ty.VariantType := by decide
example : Ty.from_src "enum.Variant::Operator" = some Ty.VariantOperator := by decide
example : Ty.from_src "enum.Vector3::Axis" = some Ty.Vector3Axis := by decide

example : Enum.strip_common_prefix ⟨"Axis", [("AXIS_0", 0), ("AXIS_1", 1)]⟩
    = some ⟨"Axis", [("_0", 0), ("_1", 1)]⟩ := by decide

example : Enum.strip_common_prefix ⟨"E", [("A_", 0), ("A_B", 1)]⟩ = none := by decide

example : Enum.strip_common_prefix ⟨"E", [("3A", 0), ("B", 1)]⟩
    = some ⟨"E", [("_3A", 0), ("B", 1)]⟩ := by decide

/-! ## Helper lemmas -/

theorem mk_toList (l : List Char) : (String.mk l).toList = l := rfl

theorem stripName_eq_of_underscore {s : String} {r : List Char}
    (h : s.toList = '_' :: r) : stripName s = String.mk r := by
  have h' : s.data = '_' :: r := h
  simp [stripName, h']

theorem find?_name_unique (l : List GodotClass) (k : GodotClass) (nm : String)
    (hk : k ∈ l) (hn : k.name = nm)
    (hu : ∀ k' ∈ l, k'.name = nm → k' = k) :
    l.find? (fun c => c.name = nm) = some k := by
  induction l with
  | nil => cases hk
  | cons a t ih =>
    by_cases ha : a.name = nm
    · have hak : a = k := hu a (List.mem_cons_self a t) ha
      subst hak
      exact List.find?_cons_of_pos _ (by simpa using ha)
    · rw [List.find?_cons_of_neg _ (by simpa using ha)]
      apply ih
      · rcases List.mem_cons.mp hk with h | h
        · subst h; exact absurd hn ha
        · exact h
      · exact fun k' hk' hn' => hu k' (List.mem_cons_of_mem a hk') hn'

theorem find_class_eq_of_unique (api : Api) (k : GodotClass) (nm : String)
    (hk : k ∈ api.classes) (hn : k.name = nm)
    (hu : ∀ k' ∈ api.classes, k'.name = nm → k' = k) :
    api.find_class nm = some k :=
  find?_name_unique api.classes k nm hk hn hu

theorem class_inheritsN_succ (api : Api) :
    ∀ fuel c nm b, api.class_inheritsN fuel c nm = some b →
      api.class_inheritsN (fuel + 1) c nm = some b := by
  intro fuel
  induction fuel with
  | zero => intro c nm b h; simp [Api.class_inheritsN] at h
  | succ f ih =>
    intro c nm b h
    by_cases hb : c.base_class = nm
    · simp only [Api.class_inheritsN, hb, if_true] at h ⊢
      exact h
    · cases hf : api.find_class c.base_class with
      | none => simp only [Api.class_inheritsN, hb, if_false, hf] at h ⊢; exact h
      | some p =>
        simp only [Api.class_inheritsN, hb, if_false, hf] at h ⊢
        exact ih p nm b h

theorem class_inheritsN_le (api : Api) {f f' : Nat} (hle : f ≤ f') :
    ∀ c nm b, api.class_inheritsN f c nm = some b →
      api.class_inheritsN f' c nm = some b := by
  induction hle with
  | refl => exact fun _ _ _ h => h
  | step _ ih => exact fun c nm b h => class_inheritsN_succ api _ c nm b (ih c nm b h)

theorem neverNamesSelf_spec (api : Api) (N : Nat) (c : GodotClass)
    (h : neverNamesSelf api N c = true) :
    ∀ k, k < N → ∀ a, api.chainN k c = some a → a.base_class ≠ c.name := by
  intro k hk a ha
  have hall := List.all_eq_true.mp h k (List.mem_range.mpr hk)
  rw [ha] at hall
  simpa using hall

theorem inheritsN_false_of_chain (api : Api) :
    ∀ N c target, api.chainN N c = none →
      (∀ k, k < N → ∀ a, api.chainN k c = some a → a.base_class ≠ target) →
      ∃ fuel, api.class_inheritsN fuel c target = some false := by
  intro N
  induction N with
  | zero => intro c target hN _; simp [Api.chainN] at hN
  | succ n ih =>
    intro c target hN hsafe
    have hb : c.base_class ≠ target := hsafe 0 (Nat.succ_pos n) c rfl
    cases hf : api.find_class c.base_class with
    | none =>
      refine ⟨1, ?_⟩
      simp [Api.class_inheritsN, hb, hf]
    | some p =>
      have hN' : api.chainN n p = none := by
        simpa only [Api.chainN, hf] using hN
      have hsafe' : ∀ k, k < n → ∀ a, api.chainN k p = some a →
          a.base_class ≠ target := by
        intro k hk a ha
        apply hsafe (k + 1) (Nat.succ_lt_succ hk) a
        simpa only [Api.chainN, hf] using ha
      obtain ⟨fuel, hfu⟩ := ih p target hN' hsafe'
      refine ⟨fuel + 1, ?_⟩
      simp [Api.class_inheritsN, hb, hf, hfu]

theorem not_inherits_of_false (api : Api) (c : GodotClass) (nm : String)
    (h : ∃ fuel, api.class_inheritsN fuel c nm = some false) :
    ¬ api.class_inherits c nm := by
  rintro ⟨f', ht⟩
  obtain ⟨f, hf⟩ := h
  rcases Nat.le_total f f' with hle | hle
  · have := class_inheritsN_le api hle c nm false hf
    rw [this] at ht
    cases ht
  · have := class_inheritsN_le api hle c nm true ht
    rw [hf] at this
    cases this

theorem startsWithList_length {p l : List Char} (h : startsWithList p l = true) :
    p.length ≤ l.length := by
  induction p generalizing l with
  | nil => simp
  | cons a as ih =>
    cases l with
    | nil => simp [startsWithList] at h
    | cons b bs =>
      simp only [startsWithList, Bool.and_eq_true] at h
      simp only [List.length_cons]
      exact Nat.succ_le_succ (ih h.2)

theorem startsWithList_take {p l : List Char} (h : startsWithList p l = true) :
    l.take p.length = p := by
  induction p generalizing l with
  | nil => simp
  | cons a as ih =>
    cases l with
    | nil => simp [startsWithList] at h
    | cons b bs =>
      simp only [startsWithList, Bool.and_eq_true, decide_eq_true_eq] at h
      obtain ⟨rfl, h2⟩ := h
      simp [List.take_succ_cons, ih h2]

theorem findUnd_lt_length {l : List Char} {n : Nat} (h : findUnd l = some n) :
    n < l.length := by
  induction l generalizing n with
  | nil => simp [findUnd] at h
  | cons c rest ih =>
    simp only [findUnd] at h
    by_cases hc : c = '_'
    · simp [hc] at h
      simp only [List.length_cons]
      omega
    · simp only [hc, if_false, ite_false] at h
      rcases Option.map_eq_some'.mp h with ⟨m, hm, rfl⟩
      have := ih hm
      simp only [List.length_cons]
      omega

theorem findUnd_take {l : List Char} {n : Nat} (h : findUnd l = some n) :
    '_' ∉ l.take n := by
  induction l generalizing n with
  | nil => simp [findUnd] at h
  | cons c rest ih =>
    simp only [findUnd] at h
    by_cases hc : c = '_'
    · simp [hc] at h
      simp [← h]
    · simp only [hc, if_false, ite_false] at h
      rcases Option.map_eq_some'.mp h with ⟨m, hm, rfl⟩
      simp only [List.take_succ_cons, List.mem_cons, not_or]
      exact ⟨fun h' => hc h'.symm, ih hm⟩

theorem findUnd_take_succ {l : List Char} {n : Nat} (h : findUnd l = some n) :
    l.take (n + 1) = l.take n ++ ['_'] := by
  induction l generalizing n with
  | nil => simp [findUnd] at h
  | cons c rest ih =>
    simp only [findUnd] at h
    by_cases hc : c = '_'
    · simp [hc] at h
      simp [← h, hc]
    · simp only [hc, if_false, ite_false] at h
      rcases Option.map_eq_some'.mp h with ⟨m, hm, rfl⟩
      simp [List.take_succ_cons, ih hm]

theorem findUnd_of_starts {c l : List Char} (hnu : '_' ∉ c)
    (h : startsWithList (c ++ ['_']) l = true) :
    findUnd l = some c.length := by
  induction c generalizing l with
  | nil =>
    cases l with
    | nil => simp [startsWithList] at h
    | cons b bs =>
      simp only [List.nil_append, startsWithList, Bool.and_eq_true,
        decide_eq_true_eq] at h
      simp [findUnd, ← h.1]
  | cons a as ih =>
    cases l with
    | nil => simp [startsWithList] at h
    | cons b bs =>
      simp only [List.cons_append, startsWithList, Bool.and_eq_true,
        decide_eq_true_eq] at h
      obtain ⟨rfl, h2⟩ := h
      have ha : ¬ a = '_' := fun hh => hnu (by simp [hh])
      have hnu' : '_' ∉ as := fun hm => hnu (List.mem_cons_of_mem a hm)
      simp [findUnd, ha, ih hnu' h2]

theorem forall₂_comp {α β γ : Type _} {R : α → β → Prop} {S : β → γ → Prop}
    {T : α → γ → Prop} {l1 : List α} {l2 : List β} {l3 : List γ}
    (h1 : List.Forall₂ R l1 l2) (h2 : List.Forall₂ S l2 l3)
    (ht : ∀ x y z, R x y → S y z → T x z) : List.Forall₂ T l1 l3 := by
  induction h1 generalizing l3 with
  | nil => cases h2; exact List.Forall₂.nil
  | cons hxy _ ih =>
    cases h2 with
    | cons hyz h2rest => exact List.Forall₂.cons (ht _ _ _ hxy hyz) (ih h2rest)

theorem forall₂_map_right {α β : Type _} (f : α → β) (l : List α) :
    List.Forall₂ (fun a b => b = f a) l (l.map f) := by
  induction l with
  | nil => exact List.Forall₂.nil
  | cons a t ih => exact List.Forall₂.cons rfl ih

theorem forall₂_mem_left {α β : Type _} {R : α → β → Prop} {l1 : List α}
    {l2 : List β} (h : List.Forall₂ R l1 l2) {x : α} (hx : x ∈ l1) :
    ∃ y ∈ l2, R x y := by
  induction h with
  | nil => cases hx
  | cons hxy _ ih =>
    rcases List.mem_cons.mp hx with rfl | hx'
    · exact ⟨_, List.mem_cons_self _ _, hxy⟩
    · rcases ih hx' with ⟨y, hy, hr⟩
      exact ⟨y, List.mem_cons_of_mem _ hy, hr⟩

theorem stripLoopFuel_of_break (fuel : Nat) (vs : List (List Char × Int))
    (h : loopBreakB vs = true) : stripLoopFuel fuel vs = vs := by
  cases fuel with
  | zero => rfl
  | succ f =>
    cases vs with
    | nil => rfl
    | cons p t =>
      obtain ⟨v0, x⟩ := p
      cases hf : findUnd v0 with
      | none => simp [stripLoopFuel, hf]
      | some n =>
        cases n with
        | zero => simp [stripLoopFuel, hf]
        | succ i =>
          simp only [loopBreakB, hf, Bool.not_eq_true'] at h
          simp [stripLoopFuel, hf, h]

theorem stripLoopFuel_post (fuel : Nat) :
    ∀ vs : List (List Char × Int), (vs.headD ([], 0)).1.length ≤ fuel →
      loopBreakB (stripLoopFuel fuel vs) = true := by
  induction fuel with
  | zero =>
    intro vs h
    cases vs with
    | nil => rfl
    | cons p t =>
      obtain ⟨v0, x⟩ := p
      simp only [List.headD_cons] at h
      have hv0 : v0 = [] := List.eq_nil_of_length_eq_zero (Nat.le_zero.mp h)
      subst hv0
      rfl
  | succ f ih =>
    intro vs h
    cases vs with
    | nil => rfl
    | cons p t =>
      obtain ⟨v0, x⟩ := p
      simp only [List.headD_cons] at h
      cases hf : findUnd v0 with
      | none =>
        have hb : loopBreakB ((v0, x) :: t) = true := by simp [loopBreakB, hf]
        rw [stripLoopFuel_of_break _ _ hb]
        exact hb
      | some n =>
        cases n with
        | zero =>
          have hb : loopBreakB ((v0, x) :: t) = true := by simp [loopBreakB, hf]
          rw [stripLoopFuel_of_break _ _ hb]
          exact hb
        | succ i =>
          cases hall : ((v0, x) :: t).all
              (fun p => startsWithList (v0.take (i + 2)) p.1) with
          | false =>
            have hb : loopBreakB ((v0, x) :: t) = true := by
              simp [loopBreakB, hf, hall]
            rw [stripLoopFuel_of_break _ _ hb]
            exact hb
          | true =>
            have hstep : stripLoopFuel (f + 1) ((v0, x) :: t)
                = stripLoopFuel f
                    (((v0, x) :: t).map (fun p => (p.1.drop (i + 2), p.2))) := by
              simp [stripLoopFuel, hf, hall]
            rw [hstep]
            apply ih
            have hlt : i + 1 < v0.length := findUnd_lt_length hf
            simp only [List.map_cons, List.headD_cons, List.length_drop]
            omega

theorem stripLoopFuel_suffix (fuel : Nat) :
    ∀ vs : List (List Char × Int),
      List.Forall₂ (fun a b => b.1 <:+ a.1 ∧ b.2 = a.2) vs (stripLoopFuel fuel vs) := by
  induction fuel with
  | zero =>
    intro vs
    exact List.forall₂_same.mpr fun y _ => ⟨List.suffix_refl _, rfl⟩
  | succ f ih =>
    intro vs
    cases vs with
    | nil => exact List.Forall₂.nil
    | cons p t =>
      obtain ⟨v0, x⟩ := p
      cases hf : findUnd v0 with
      | none =>
        have hb : loopBreakB ((v0, x) :: t) = true := by simp [loopBreakB, hf]
        rw [stripLoopFuel_of_break _ _ hb]
        exact List.forall₂_same.mpr fun y _ => ⟨List.suffix_refl _, rfl⟩
      | some n =>
        cases n with
        | zero =>
          have hb : loopBreakB ((v0, x) :: t) = true := by simp [loopBreakB, hf]
          rw [stripLoopFuel_of_break _ _ hb]
          exact List.forall₂_same.mpr fun y _ => ⟨List.suffix_refl _, rfl⟩
        | succ i =>
          cases hall : ((v0, x) :: t).all
              (fun p => startsWithList (v0.take (i + 2)) p.1) with
          | false =>
            have hb : loopBreakB ((v0, x) :: t) = true := by
              simp [loopBreakB, hf, hall]
            rw [stripLoopFuel_of_break _ _ hb]
            exact List.forall₂_same.mpr fun y _ => ⟨List.suffix_refl _, rfl⟩
          | true =>
            have hstep : stripLoopFuel (f + 1) ((v0, x) :: t)
                = stripLoopFuel f
                    (((v0, x) :: t).map (fun p => (p.1.drop (i + 2), p.2))) := by
              simp [stripLoopFuel, hf, hall]
            rw [hstep]
            refine forall₂_comp (forall₂_map_right _ _) (ih _) ?_
            rintro a b c rfl ⟨hsuf, hsnd⟩
            exact ⟨hsuf.trans (List.drop_suffix _ _), hsnd⟩

theorem stripLoop_first (fuel : Nat) (vs : List (List Char × Int)) (c : List Char)
    (hne : c ≠ []) (hnu : '_' ∉ c) (hvs : vs ≠ [])
    (hall : ∀ p ∈ vs, startsWithList (c ++ ['_']) p.1 = true) :
    stripLoopFuel (fuel + 1) vs
      = stripLoopFuel fuel (vs.map (fun p => (p.1.drop (c.length + 1), p.2))) := by
  cases vs with
  | nil => exact absurd rfl hvs
  | cons p t =>
    obtain ⟨v0, x⟩ := p
    have hstart : startsWithList (c ++ ['_']) v0 = true :=
      hall (v0, x) (List.mem_cons_self _ _)
    have hfind : findUnd v0 = some c.length := findUnd_of_starts hnu hstart
    obtain ⟨i, hi⟩ : ∃ i, c.length = i + 1 :=
      Nat.exists_eq_succ_of_ne_zero (fun h0 => hne (List.length_eq_zero.mp h0))
    rw [hi] at hfind
    have htake : v0.take (i + 2) = c ++ ['_'] := by
      have hh := startsWithList_take hstart
      rw [List.length_append, List.length_singleton, hi] at hh
      exact hh
    have hcond : (((v0, x) :: t).all
        (fun p => startsWithList (v0.take (i + 2)) p.1)) = true := by
      rw [List.all_eq_true]
      intro p hp
      rw [htake]
      exact hall p hp
    simp only [stripLoopFuel, hfind, hcond, if_true]
    rw [hi]

theorem chunk_of_not_break (vs : List (List Char × Int))
    (h : loopBreakB vs = false) :
    ∃ c : List Char, c ≠ [] ∧ '_' ∉ c ∧
      ∀ p ∈ vs, startsWithList (c ++ ['_']) p.1 = true := by
  cases vs with
  | nil => simp [loopBreakB] at h
  | cons p t =>
    obtain ⟨v0, x⟩ := p
    cases hf : findUnd v0 with
    | none => simp [loopBreakB, hf] at h
    | some n =>
      cases n with
      | zero => simp [loopBreakB, hf] at h
      | succ i =>
        simp only [loopBreakB, hf, Bool.not_eq_false'] at h
        refine ⟨v0.take (i + 1), ?_, findUnd_take hf, ?_⟩
        · have hlt := findUnd_lt_length hf
          intro h0
          have hlen := congrArg List.length h0
          simp only [List.length_take, List.length_nil] at hlen
          omega
        · intro p hp
          have hall := List.all_eq_true.mp h p hp
          rw [← findUnd_take_succ hf]
          exact hall

theorem rebuild_spec :
    ∀ {vs out : List (List Char × Int)}, rebuild vs = some out →
      List.Forall₂ (fun a b => a.2 = b.2 ∧ (b.1 = a.1 ∨ b.1 = '_' :: a.1) ∧ a.1 ≠ [])
        vs out := by
  intro vs
  induction vs with
  | nil =>
    intro out h
    simp only [rebuild] at h
    cases h
    exact List.Forall₂.nil
  | cons p rest ih =>
    intro out h
    obtain ⟨n, v⟩ := p
    simp only [rebuild] at h
    cases hd : digitFix n with
    | none => rw [hd] at h; cases h
    | some m =>
      cases hr : rebuild rest with
      | none => rw [hd, hr] at h; cases h
      | some ms =>
        rw [hd, hr] at h
        cases h
        refine List.Forall₂.cons ?_ (ih hr)
        cases n with
        | nil => simp [digitFix] at hd
        | cons ch chrest =>
          simp only [digitFix] at hd
          cases hd
          refine ⟨rfl, ?_, by simp⟩
          by_cases hdig : ch.isDigit = true
          · right; simp [hdig]
          · left; simp [hdig]

theorem rebuild_rebuild :
    ∀ {vs out : List (List Char × Int)}, rebuild vs = some out →
      rebuild out = some out := by
  intro vs
  induction vs with
  | nil =>
    intro out h
    simp only [rebuild] at h
    cases h
    rfl
  | cons p rest ih =>
    intro out h
    obtain ⟨n, v⟩ := p
    simp only [rebuild] at h
    cases hd : digitFix n with
    | none => rw [hd] at h; cases h
    | some m =>
      cases hr : rebuild rest with
      | none => rw [hd, hr] at h; cases h
      | some ms =>
        rw [hd, hr] at h
        cases h
        have hdm : digitFix m = some m := by
          cases n with
          | nil => simp [digitFix] at hd
          | cons ch chrest =>
            simp only [digitFix] at hd
            cases hd
            by_cases hdig : ch.isDigit = true
            · simp [digitFix, hdig]
            · simp [digitFix, hdig]
        simp only [rebuild, hdm, ih hr]

/-- The whole loop + rebuild pipeline, relative to a common segment
`c_`: every output variant keeps its value and its name is a suffix of
the input name with `c_` removed, possibly re-prefixed with `_`. -/
theorem loop_rebuild_chain (vs0 R : List (List Char × Int)) (c : List Char)
    (hne : c ≠ []) (hnu : '_' ∉ c) (hvs : vs0 ≠ [])
    (hall : ∀ p ∈ vs0, startsWithList (c ++ ['_']) p.1 = true)
    (hr : rebuild (stripLoopFuel ((vs0.headD ([], 0)).1.length) vs0) = some R) :
    List.Forall₂ (fun a b => a.2 = b.2 ∧ ∃ m, m <:+ a.1.drop (c.length + 1)
      ∧ (b.1 = m ∨ b.1 = '_' :: m)) vs0 R := by
  obtain ⟨p0, t0, rfl⟩ : ∃ p0 t0, vs0 = p0 :: t0 := by
    cases vs0 with
    | nil => exact absurd rfl hvs
    | cons a b => exact ⟨a, b, rfl⟩
  have hlen0 : c.length + 1 ≤ p0.1.length := by
    have hh := startsWithList_length (hall p0 (List.mem_cons_self _ _))
    simpa using hh
  obtain ⟨f, hf⟩ : ∃ f, ((p0 :: t0).headD ([], 0)).1.length = f + 1 := by
    simp only [List.headD_cons]
    exact Nat.exists_eq_succ_of_ne_zero (by omega)
  rw [hf, stripLoop_first f (p0 :: t0) c hne hnu (by simp) hall] at hr
  have F3 := stripLoopFuel_suffix f
    ((p0 :: t0).map (fun p => (p.1.drop (c.length + 1), p.2)))
  have F4 := rebuild_spec hr
  have Fmid : List.Forall₂
      (fun y w => ∃ m, m <:+ y.1 ∧ (w.1 = m ∨ w.1 = '_' :: m) ∧ w.2 = y.2)
      ((p0 :: t0).map (fun p => (p.1.drop (c.length + 1), p.2))) R := by
    refine forall₂_comp F3 F4 ?_
    rintro y z w ⟨hsuf, hsnd⟩ ⟨hsnd2, hor, hne2⟩
    exact ⟨z.1, hsuf, hor, by rw [← hsnd2, hsnd]⟩
  refine forall₂_comp (forall₂_map_right (fun p => (p.1.drop (c.length + 1), p.2))
    (p0 :: t0)) Fmid ?_
  rintro x y w rfl ⟨m, hm, hor, hsndw⟩
  exact ⟨hsndw.symm, m, hm, hor⟩

theorem forall₂_mem_right {α β : Type _} {R : α → β → Prop} {l1 : List α}
    {l2 : List β} (h : List.Forall₂ R l1 l2) {y : β} (hy : y ∈ l2) :
    ∃ x ∈ l1, R x y := by
  induction h with
  | nil => cases hy
  | cons hxy _ ih =>
    rcases List.mem_cons.mp hy with rfl | hy'
    · exact ⟨_, List.mem_cons_self _ _, hxy⟩
    · rcases ih hy' with ⟨x, hx, hr⟩
      exact ⟨x, List.mem_cons_of_mem _ hx, hr⟩

theorem collect_subset : ∀ (l : List (List Char × Int)), ∀ b ∈ collectPairs l, b ∈ l := by
  intro l
  induction l with
  | nil => intro b hb; cases hb
  | cons p rest ih =>
    intro b hb
    simp only [collectPairs] at hb
    by_cases hdup : rest.any (fun q => q.1 = p.1) = true
    · rw [if_pos hdup] at hb
      exact List.mem_cons_of_mem p (ih b hb)
    · rw [if_neg hdup] at hb
      rcases List.mem_cons.mp hb with rfl | hb'
      · exact List.mem_cons_self _ _
      · exact List.mem_cons_of_mem p (ih b hb')

theorem collect_key : ∀ (l : List (List Char × Int)), ∀ a ∈ l,
    ∃ b ∈ collectPairs l, b.1 = a.1 := by
  intro l
  induction l with
  | nil => intro a ha; cases ha
  | cons p rest ih =>
    intro a ha
    simp only [collectPairs]
    by_cases hdup : rest.any (fun q => q.1 = p.1) = true
    · rw [if_pos hdup]
      rcases List.mem_cons.mp ha with rfl | ha'
      · rcases List.any_eq_true.mp hdup with ⟨q, hq, hqk⟩
        rcases ih q hq with ⟨b, hb, hbk⟩
        exact ⟨b, hb, by rw [hbk]; exact of_decide_eq_true hqk⟩
      · exact ih a ha'
    · rw [if_neg hdup]
      rcases List.mem_cons.mp ha with rfl | ha'
      · exact ⟨a, List.mem_cons_self _ _, rfl⟩
      · rcases ih a ha' with ⟨b, hb, hbk⟩
        exact ⟨b, List.mem_cons_of_mem p hb, hbk⟩

theorem collect_length_le : ∀ (l : List (List Char × Int)),
    (collectPairs l).length ≤ l.length := by
  intro l
  induction l with
  | nil => exact Nat.le_refl _
  | cons p rest ih =>
    simp only [collectPairs]
    by_cases hdup : rest.any (fun q => q.1 = p.1) = true
    · rw [if_pos hdup]
      simp only [List.length_cons]
      omega
    · rw [if_neg hdup]
      simp only [List.length_cons]
      omega

theorem collect_eq_of_length : ∀ (l : List (List Char × Int)),
    (collectPairs l).length = l.length → collectPairs l = l := by
  intro l
  induction l with
  | nil => intro _; rfl
  | cons p rest ih =>
    intro hlen
    simp only [collectPairs] at hlen ⊢
    by_cases hdup : rest.any (fun q => q.1 = p.1) = true
    · rw [if_pos hdup] at hlen
      have := collect_length_le rest
      simp only [List.length_cons] at hlen
      omega
    · rw [if_neg hdup] at hlen ⊢
      simp only [List.length_cons] at hlen
      rw [ih (by omega)]

theorem collect_keys_nodup : ∀ (l : List (List Char × Int)),
    ((collectPairs l).map Prod.fst).Nodup := by
  intro l
  induction l with
  | nil => exact List.nodup_nil
  | cons p rest ih =>
    simp only [collectPairs]
    by_cases hdup : rest.any (fun q => q.1 = p.1) = true
    · rw [if_pos hdup]
      exact ih
    · rw [if_neg hdup]
      simp only [List.map_cons, List.nodup_cons]
      refine ⟨?_, ih⟩
      intro hmem
      rcases List.mem_map.mp hmem with ⟨b, hb, hbk⟩
      have hbrest := collect_subset rest b hb
      have : rest.any (fun q => q.1 = p.1) = true :=
        List.any_eq_true.mpr ⟨b, hbrest, decide_eq_true hbk⟩
      exact hdup this

theorem collect_eq_of_nodup : ∀ (l : List (List Char × Int)),
    (l.map Prod.fst).Nodup → collectPairs l = l := by
  intro l
  induction l with
  | nil => intro _; rfl
  | cons p rest ih =>
    intro hnd
    simp only [List.map_cons, List.nodup_cons] at hnd
    simp only [collectPairs]
    have hdup : rest.any (fun q => q.1 = p.1) = false := by
      cases hany : rest.any (fun q => q.1 = p.1) with
      | false => rfl
      | true =>
        rcases List.any_eq_true.mp hany with ⟨q, hq, hqk⟩
        exact absurd (List.mem_map.mpr ⟨q, hq, of_decide_eq_true hqk⟩) hnd.1
    rw [if_neg (by rw [hdup]; exact Bool.false_ne_true)]
    rw [ih hnd.2]

theorem collect_idem (l : List (List Char × Int)) :
    collectPairs (collectPairs l) = collectPairs l :=
  collect_eq_of_nodup (collectPairs l) (collect_keys_nodup l)

theorem digitFix_fix {n m : List Char} (h : digitFix n = some m) :
    digitFix m = some m := by
  cases n with
  | nil => simp [digitFix] at h
  | cons ch chrest =>
    simp only [digitFix, Option.some.injEq] at h
    subst h
    by_cases hdig : ch.isDigit = true
    · rw [if_pos hdig]
      simp [digitFix]
    · rw [if_neg hdig]
      simp [digitFix, hdig]

theorem rebuild_entries_fixed :
    ∀ {vs out : List (List Char × Int)}, rebuild vs = some out →
      ∀ p ∈ out, digitFix p.1 = some p.1 := by
  intro vs
  induction vs with
  | nil =>
    intro out h p hp
    simp only [rebuild] at h
    cases h
    cases hp
  | cons q rest ih =>
    intro out h p hp
    obtain ⟨n, v⟩ := q
    simp only [rebuild] at h
    cases hd : digitFix n with
    | none => rw [hd] at h; cases h
    | some m =>
      cases hr : rebuild rest with
      | none => rw [hd, hr] at h; cases h
      | some ms =>
        rw [hd, hr] at h
        cases h
        rcases List.mem_cons.mp hp with rfl | hp'
        · exact digitFix_fix hd
        · exact ih hr p hp'

theorem rebuild_of_fixed : ∀ (l : List (List Char × Int)),
    (∀ p ∈ l, digitFix p.1 = some p.1) → rebuild l = some l := by
  intro l
  induction l with
  | nil => intro _; rfl
  | cons p rest ih =>
    intro h
    obtain ⟨n, v⟩ := p
    have hn : digitFix n = some n := h (n, v) (List.mem_cons_self _ _)
    simp only [rebuild, hn, ih (fun q hq => h q (List.mem_cons_of_mem _ hq))]

/-- The `HashMap` deduplication cannot re-create a strippable common
segment either: it preserves the break condition, because it preserves
the *set* of variant names. -/
theorem break_collect (R : List (List Char × Int))
    (hbr : loopBreakB R = true) : loopBreakB (collectPairs R) = true := by
  cases hc : collectPairs R with
  | nil => rfl
  | cons h0 t' =>
    obtain ⟨hn, hv⟩ := h0
    cases hf : findUnd hn with
    | none => simp [loopBreakB, hf]
    | some n =>
      cases n with
      | zero => simp [loopBreakB, hf]
      | succ i =>
        simp only [loopBreakB, hf, Bool.not_eq_true']
        cases hallv : ((hn, hv) :: t').all
            (fun p => startsWithList (hn.take (i + 2)) p.1) with
        | false => rfl
        | true =>
          exfalso
          have hRall : ∀ a ∈ R, startsWithList (hn.take (i + 2)) a.1 = true := by
            intro a ha
            obtain ⟨b, hb, hkey⟩ := collect_key R a ha
            have hball := List.all_eq_true.mp hallv b (hc ▸ hb)
            rw [← hkey]
            exact hball
          have hhR : (hn, hv) ∈ R :=
            collect_subset R (hn, hv) (hc ▸ List.mem_cons_self _ _)
          cases R with
          | nil => cases hhR
          | cons r0 rest =>
            obtain ⟨r0n, r0v⟩ := r0
            have hr0 := hRall (r0n, r0v) (List.mem_cons_self _ _)
            have hpre : hn.take (i + 2) = hn.take (i + 1) ++ ['_'] :=
              findUnd_take_succ hf
            have hlt := findUnd_lt_length hf
            have hclen : (hn.take (i + 1)).length = i + 1 := by
              rw [List.length_take]
              omega
            have hfr0 : findUnd r0n = some (i + 1) := by
              have hh := findUnd_of_starts (findUnd_take hf)
                (by rw [← hpre]; exact hr0)
              rw [hclen] at hh
              exact hh
            have htk : r0n.take (i + 2) = hn.take (i + 2) := by
              have hh := startsWithList_take hr0
              have hl2 : (hn.take (i + 2)).length = i + 2 := by
                rw [List.length_take]
                omega
              rw [hl2] at hh
              exact hh
            simp only [loopBreakB, hfr0, Bool.not_eq_true'] at hbr
            rw [htk] at hbr
            have hallR : (((r0n, r0v) :: rest).all
                (fun p => startsWithList (hn.take (i + 2)) p.1)) = true :=
              List.all_eq_true.mpr (fun a ha => hRall a ha)
            rw [hallR] at hbr
            cases hbr

/-- Pulling a `Forall₂` relation through the dedup and the final
`String.mk` map: every output binding comes from some input entry. -/
theorem collect_map_mem_left {vals : List (String × Int)}
    {R : List (List Char × Int)}
    {REL : (String × Int) → (List Char × Int) → Prop}
    (F : List.Forall₂ REL vals R) :
    ∀ b ∈ (collectPairs R).map (fun p => (String.mk p.1, p.2)),
      ∃ a ∈ vals, REL a (b.1.toList, b.2) := by
  intro b hb
  rcases List.mem_map.mp hb with ⟨w, hw, rfl⟩
  obtain ⟨a, ha, hrel⟩ := forall₂_mem_right F (collect_subset R w hw)
  exact ⟨a, ha, hrel⟩

/-- Every input entry's rebuilt name survives the dedup as a key of
some output binding. -/
theorem collect_map_mem_right {vals : List (String × Int)}
    {R : List (List Char × Int)}
    {REL : (String × Int) → (List Char × Int) → Prop}
    (F : List.Forall₂ REL vals R) :
    ∀ a ∈ vals, ∃ b ∈ (collectPairs R).map (fun p => (String.mk p.1, p.2)),
      ∃ w, REL a w ∧ b.1.toList = w.1 := by
  intro a ha
  obtain ⟨w, hw, hrel⟩ := forall₂_mem_left F ha
  obtain ⟨u, hu, hkey⟩ := collect_key R w hw
  exact ⟨(String.mk u.1, u.2), List.mem_map_of_mem _ hu, w, hrel, hkey⟩

/-! ## Claims C1, C3 (the type classifier) -/

/-- Claim C1, counterexample: classification is not total.  On the
string `enum.Foo` — which begins with `enum.` and contains no `::`
separator — `Ty::from_src` reaches `split.next().unwrap()` on an
exhausted iterator and panics instead of returning a tag. -/
theorem fromSrc_enum_noSep_panics : Ty.from_src "enum.Foo" = none := by decide

/-- Claim C1, amended: `Ty::from_src` is a deterministic function, and
every string that is not one of the exact-match table entries and does
not begin with `enum.` yields an `Object` tag carrying the snake-cased
module path and the class name itself, provided the two derived path
segments are valid identifiers (an invalid identifier panics inside
`format_ident!`).  Strings beginning with `enum.` that are not table
entries and contain no `::` panic rather than classify. -/
theorem fromSrc_fallback_object (s : String)
    (htable : builtinTable.lookup s = none)
    (henum : startsWithList "enum.".toList s.toList = false)
    (hmod : is_rust_ident (to_snake_case s) = true)
    (hid : is_rust_ident s = true) :
    Ty.from_src s = some (Ty.Object ["crate", "generated", to_snake_case s, s]) := by
  have h2 : Ty.from_src s = fromSrcAux 2 s := rfl
  rw [h2]
  simp only [fromSrcAux, htable, henum, hmod, hid]
  simp

theorem fromSrc_fallback_object_witness :
    builtinTable.lookup "Node" = none
    ∧ startsWithList "enum.".toList "Node".toList = false
    ∧ is_rust_ident (to_snake_case "Node") = true
    ∧ is_rust_ident "Node" = true
    ∧ Ty.from_src "Node"
        = some (Ty.Object ["crate", "generated", to_snake_case "Node", "Node"]) :=
  ⟨by decide, by decide, by decide, by decide,
   fromSrc_fallback_object "Node" (by decide) (by decide) (by decide) (by decide)⟩

/-- Claim C3, counterexample: `UnknownThing` classifies as a fallback
`Object` tag, and precisely because of that the recursive `enum.` rule
matches the `Ty::Object(_)` arm, so `enum.UnknownThing::SomeEnum`
*does* nest under the `generated` namespace segment — the claim's
assertion that it does not is false. -/
theorem enumTag_generated_counterexample :
    Ty.from_src "enum.UnknownThing::SomeEnum"
      = some (Ty.Enum ["crate", "generated", "unknown_thing", "SomeEnum"])
    ∧ "generated" ∈ (["crate", "generated", "unknown_thing", "SomeEnum"] : List String) := by
  decide

/-- Claim C3, amended: both an owner that is an unknown (fallback
object) class and any other owner that is not a built-in table entry
yield enum tags nested under `generated`; the two paths differ only in
the owner-module segment.  A path *without* the `generated` segment
arises exactly when the owner is a built-in non-object, non-enum table
entry, e.g. `enum.Transform::SomeEnum`. -/
theorem enumTag_generated_paths :
    Ty.from_src "enum.SomeClass::SomeEnum"
      = some (Ty.Enum ["crate", "generated", "some_class", "SomeEnum"])
    ∧ Ty.from_src "enum.UnknownThing::SomeEnum"
      = some (Ty.Enum ["crate", "generated", "unknown_thing", "SomeEnum"])
    ∧ Ty.from_src "enum.Transform::SomeEnum"
      = some (Ty.Enum ["transform", "SomeEnum"]) := by
  decide

/-! ## Claim C5 (inheritance query) -/

/-- Claim C5: `class_inherits` is transitive along the base-class chain
(`A.base = B.name`, `B.base = C.name` entail `inherits A C.name`, under
the schema invariant that class names are unique), and a class whose
base-class chain terminates and never names the class itself does not
inherit from itself (the recursion returns `false`). -/
theorem inherits_trans_irrefl (api : Api) :
    (∀ A B C, A ∈ api.classes → B ∈ api.classes → C ∈ api.classes →
      (∀ x ∈ api.classes, ∀ y ∈ api.classes, x.name = y.name → x = y) →
      A.base_class = B.name → B.base_class = C.name →
      api.class_inherits A C.name)
    ∧ (∀ c N, api.chainN N c = none → neverNamesSelf api N c = true →
        ¬ api.class_inherits c c.name
        ∧ ∃ fuel, api.class_inheritsN fuel c c.name = some false) := by
  constructor
  · intro A B C hA hB hC huniq hAB hBC
    refine ⟨2, ?_⟩
    by_cases h1 : A.base_class = C.name
    · simp [Api.class_inheritsN, h1]
    · have hfind : api.find_class A.base_class = some B := by
        rw [hAB]
        exact find_class_eq_of_unique api B B.name hB rfl
          (fun k' hk' hn' => huniq k' hk' B hB hn')
      simp [Api.class_inheritsN, h1, hfind, hBC]
  · intro c N hN hsafe
    have hfalse := inheritsN_false_of_chain api N c c.name hN
      (neverNamesSelf_spec api N c hsafe)
    exact ⟨not_inherits_of_false api c c.name hfalse, hfalse⟩

theorem inherits_trans_irrefl_witness :
    (mkClass "A" "B" false ∈ api5.classes
     ∧ api5.chainN 3 (mkClass "A" "B" false) = none
     ∧ neverNamesSelf api5 3 (mkClass "A" "B" false) = true)
    ∧ api5.class_inherits (mkClass "A" "B" false) "C"
    ∧ (¬ api5.class_inherits (mkClass "A" "B" false) "A"
       ∧ ∃ fuel,
          api5.class_inheritsN fuel (mkClass "A" "B" false) "A" = some false) :=
  ⟨⟨by decide, by decide, by decide⟩,
   (inherits_trans_irrefl api5).1 (mkClass "A" "B" false) (mkClass "B" "C" false)
     (mkClass "C" "" false) (by decide) (by decide) (by decide) (by decide) rfl rfl,
   (inherits_trans_irrefl api5).2 (mkClass "A" "B" false) 3 (by decide) (by decide)⟩

/-! ## Claim C6 (singleton thread safety) -/

theorem thread_safe_eq (c : GodotClass) (h : c.singleton = true) :
    c.is_singleton_thread_safe = some (!decide (c.name ∈ denyList)) := by
  simp only [GodotClass.is_singleton_thread_safe, h, if_true]
  congr 1
  by_cases h1 : c.name = "VisualServer"
  · rw [h1]; decide
  by_cases h2 : c.name = "PhysicsServer"
  · rw [h2]; decide
  by_cases h3 : c.name = "Physics3DServer"
  · rw [h3]; decide
  by_cases h4 : c.name = "Physics2DServer"
  · rw [h4]; decide
  have hnm : c.name ∉ denyList := by simp [denyList, h1, h2, h3, h4]
  rw [decide_eq_false hnm]
  split <;> simp_all

/-- Claim C6: on a class with the singleton flag set,
`is_singleton_thread_safe` returns `false` exactly when the class name
is one of the four deny-listed server singletons and `true` for every
other name; on a class with the flag unset it panics
(`assert!(self.singleton)`) instead of returning. -/
theorem singleton_thread_safe_spec (c : GodotClass) :
    (c.singleton = true →
      (c.is_singleton_thread_safe = some false ↔ c.name ∈ denyList)
      ∧ (c.is_singleton_thread_safe = some true ↔ c.name ∉ denyList))
    ∧ (c.singleton = false → c.is_singleton_thread_safe = none) := by
  constructor
  · intro h
    rw [thread_safe_eq c h]
    by_cases hm : c.name ∈ denyList
    · simp [hm]
    · simp [hm]
  · intro h
    simp [GodotClass.is_singleton_thread_safe, h]

theorem singleton_thread_safe_spec_witness :
    ((mkClass "VisualServer" "" true).singleton = true
     ∧ ((mkClass "VisualServer" "" true).is_singleton_thread_safe = some false
        ↔ (mkClass "VisualServer" "" true).name ∈ denyList))
    ∧ ((mkClass "Node" "" false).singleton = false
       ∧ (mkClass "Node" "" false).is_singleton_thread_safe = none) :=
  ⟨⟨rfl, ((singleton_thread_safe_spec (mkClass "VisualServer" "" true)).1 rfl).1⟩,
   ⟨rfl, (singleton_thread_safe_spec (mkClass "Node" "" false)).2 rfl⟩⟩

/-! ## Claim C8 (base-class dereference) -/

/-- Claim C8: `base_class` returns `None` exactly when the `base_class`
field is the empty string; when the field is non-empty and a class of
that name is in the loaded set (in particular the unique such class,
under name uniqueness) it is returned; when no class of that name
exists the call panics (`expect("base class should exist")`) rather
than returning `None`. -/
theorem base_class_spec (api : Api) (c : GodotClass) :
    (c.base_class = "" ↔ c.base_class' api = some none)
    ∧ (∀ k, c.base_class ≠ "" → api.find_class c.base_class = some k →
        c.base_class' api = some (some k))
    ∧ (c.base_class ≠ "" → api.find_class c.base_class = none →
        c.base_class' api = none)
    ∧ (∀ k, c.base_class ≠ "" → k ∈ api.classes → k.name = c.base_class →
        (∀ k' ∈ api.classes, k'.name = c.base_class → k' = k) →
        c.base_class' api = some (some k)) := by
  refine ⟨⟨?_, ?_⟩, ?_, ?_, ?_⟩
  · intro hb
    simp [GodotClass.base_class', GodotClass.base_class_name, hb]
  · intro hres
    by_contra hb
    simp only [GodotClass.base_class', GodotClass.base_class_name, hb,
      if_neg, ite_false] at hres
    cases hfind : api.find_class c.base_class <;> simp [hfind] at hres
  · intro k hb hfind
    simp [GodotClass.base_class', GodotClass.base_class_name, hb, hfind]
  · intro hb hfind
    simp [GodotClass.base_class', GodotClass.base_class_name, hb, hfind]
  · intro k hb hk hn hu
    have hfind : api.find_class c.base_class = some k :=
      find_class_eq_of_unique api k c.base_class hk hn hu
    simp [GodotClass.base_class', GodotClass.base_class_name, hb, hfind]

theorem base_class_spec_witness :
    ((mkClass "A" "B" false).base_class ≠ ""
     ∧ mkClass "B" "C" false ∈ api5.classes
     ∧ (mkClass "B" "C" false).name = (mkClass "A" "B" false).base_class)
    ∧ (mkClass "A" "B" false).base_class' api5 = some (some (mkClass "B" "C" false)) :=
  ⟨⟨by decide, by decide, by decide⟩,
   (base_class_spec api5 (mkClass "A" "B" false)).2.2.2 (mkClass "B" "C" false)
     (by decide) (by decide) (by decide) (by decide)⟩

/-! ## Claim C9 (enum prefix stripping can panic) -/

/-- Claim C9: there is an enum input on which `strip_common_prefix`
panics: with variants `{"A_": 0, "A_B": 1}` the common prefix `A_` is
stripped from all variants, the name `A_` becomes empty, and the
rebuild step hits `expect("name should not be empty")`. -/
theorem stripEnum_empty_name_panics :
    Enum.strip_common_prefix ⟨"E", [("A_", 0), ("A_B", 1)]⟩ = none := by
  decide

/-! ## Claim C2 (enum common-prefix stripping) -/

/-- Claim C2, counterexample: (a) an enum whose variants share no
common underscore-delimited prefix is *not* always left unmodified —
the digit-prefix rebuild still runs, so `{"3A": 0, "B": 1}` becomes
`{"_3A": 0, "B": 1}`; and (b) a variant does *not* always keep its
integer value — on `{"P_3A": 0, "P__3A": 1}` the common segment `P_` is
stripped, the rebuilt names `_3A` (digit-prefixed) and `_3A` collide,
and the `HashMap` collect keeps a single binding, dropping the other
variant's value. -/
theorem stripEnum_digit_modifies_counterexample :
    (¬ CommonChunkOf ⟨"E", [("3A", 0), ("B", 1)]⟩
     ∧ Enum.strip_common_prefix ⟨"E", [("3A", 0), ("B", 1)]⟩
         = some ⟨"E", [("_3A", 0), ("B", 1)]⟩
     ∧ (⟨"E", [("_3A", 0), ("B", 1)]⟩ : Enum) ≠ ⟨"E", [("3A", 0), ("B", 1)]⟩)
    ∧ (Enum.strip_common_prefix ⟨"E", [("P_3A", 0), ("P__3A", 1)]⟩
         = some ⟨"E", [("_3A", 1)]⟩
       ∧ (Enum.strip_common_prefix ⟨"E", [("P_3A", 0), ("P__3A", 1)]⟩).map
           (fun x => x.values.length) = some 1) := by
  refine ⟨⟨?_, by decide, by decide⟩, by decide, by decide⟩
  intro hcc
  unfold CommonChunkOf at hcc
  obtain ⟨c, hne, hnu, hall⟩ := hcc
  have h := hall ("B", 1) (by simp)
  have hlen := startsWithList_length h
  have hB : (("B", (1 : Int)).1.toList).length = 1 := by decide
  rw [List.length_append, hB] at hlen
  simp only [List.length_singleton] at hlen
  exact hne (List.length_eq_zero.mp (by omega))

/-- Claim C2, amended: for an enum with ≥ 2 variants all sharing a
common underscore-terminated segment `c_`, a successful
`strip_common_prefix` removes (at least) that segment from every
variant name — each output name is a suffix of its input name with
`c_` dropped, possibly with `_` re-prepended when the stripped name
starts with a digit.  Each output binding carries the value of an input
variant with that stripped name, and every input variant's stripped
name appears among the output names; but two variants whose stripped
names collide collapse to a *single* map entry (the final
`collect::<HashMap<_,_>>` deduplicates), so the values are all kept
exactly when no names collide — equivalently, when output and input
have the same number of variants — and then the claimed
variant-by-variant value-preserving correspondence holds.  An enum with
exactly one variant is never modified; an enum whose variants share no
common underscore-delimited segment has no prefix removed, but
digit-initial names still gain a `_` prefix (and collisions likewise
collapse, with the same no-collision correspondence); and
`{"AXIS_0": 0, "AXIS_1": 1}` strips to `{"_0": 0, "_1": 1}`.
(A successful run is hypothesised because the pass can panic, see C9.) -/
theorem stripEnum_segment_spec (e e' : Enum) (c : List Char)
    (hne : c ≠ []) (hnu : '_' ∉ c)
    (hall : ∀ p ∈ e.values, startsWithList (c ++ ['_']) p.1.toList = true)
    (hlen : 2 ≤ e.values.length)
    (hstrip : Enum.strip_common_prefix e = some e') :
    (∀ b ∈ e'.values, ∃ a ∈ e.values, a.2 = b.2
      ∧ ∃ m, m <:+ a.1.toList.drop (c.length + 1)
        ∧ (b.1.toList = m ∨ b.1.toList = '_' :: m))
    ∧ (∀ a ∈ e.values, ∃ b ∈ e'.values,
        ∃ m, m <:+ a.1.toList.drop (c.length + 1)
          ∧ (b.1.toList = m ∨ b.1.toList = '_' :: m))
    ∧ (e'.values.length = e.values.length →
        List.Forall₂ (fun a b => a.2 = b.2 ∧ ∃ m, m <:+ a.1.toList.drop (c.length + 1)
          ∧ (b.1.toList = m ∨ b.1.toList = '_' :: m)) e.values e'.values)
    ∧ (∀ f : Enum, f.values.length = 1 → Enum.strip_common_prefix f = some f)
    ∧ (∀ f f' : Enum, ¬ CommonChunkOf f → Enum.strip_common_prefix f = some f' →
        (∀ b ∈ f'.values, ∃ a ∈ f.values, a.2 = b.2
          ∧ (b.1 = a.1 ∨ b.1.toList = '_' :: a.1.toList))
        ∧ (∀ a ∈ f.values, ∃ b ∈ f'.values,
            (b.1 = a.1 ∨ b.1.toList = '_' :: a.1.toList))
        ∧ (f'.values.length = f.values.length →
            List.Forall₂ (fun a b => a.2 = b.2
              ∧ (b.1 = a.1 ∨ b.1.toList = '_' :: a.1.toList)) f.values f'.values))
    ∧ Enum.strip_common_prefix ⟨"Axis", [("AXIS_0", 0), ("AXIS_1", 1)]⟩
        = some ⟨"Axis", [("_0", 0), ("_1", 1)]⟩ := by
  have hlen' : ¬ e.values.length ≤ 1 := by omega
  simp only [Enum.strip_common_prefix, hlen', if_false, ite_false] at hstrip
  cases hr : rebuild (stripLoopFuel
      (((e.values.map (fun p => (p.1.toList, p.2))).headD ([], 0)).1.length)
      (e.values.map (fun p => (p.1.toList, p.2)))) with
  | none => rw [hr] at hstrip; cases hstrip
  | some R =>
    rw [hr] at hstrip
    cases hstrip
    have hvs0ne : e.values.map (fun p => (p.1.toList, p.2)) ≠ [] := by
      intro h0
      have hl0 := congrArg List.length h0
      simp only [List.length_map, List.length_nil] at hl0
      omega
    have hall' : ∀ p ∈ e.values.map (fun p => (p.1.toList, p.2)),
        startsWithList (c ++ ['_']) p.1 = true := by
      intro p hp
      rcases List.mem_map.mp hp with ⟨q, hq, rfl⟩
      exact hall q hq
    have Fc := loop_rebuild_chain _ R c hne hnu hvs0ne hall' hr
    have Fev : List.Forall₂ (fun (a : String × Int) (w : List Char × Int) =>
        a.2 = w.2 ∧ ∃ m, m <:+ a.1.toList.drop (c.length + 1)
          ∧ (w.1 = m ∨ w.1 = '_' :: m)) e.values R := by
      refine forall₂_comp (forall₂_map_right (fun p => (p.1.toList, p.2)) e.values)
        Fc ?_
      rintro a x w rfl ⟨hsnd, m, hm, hor⟩
      exact ⟨hsnd, m, hm, hor⟩
    refine ⟨?_, ?_, ?_, ?_, ?_, by decide⟩
    · intro b hb
      obtain ⟨a, ha, hrel⟩ := collect_map_mem_left Fev b hb
      exact ⟨a, ha, hrel⟩
    · intro a ha
      obtain ⟨b, hb, w, ⟨hsnd, m, hm, hor⟩, hkey⟩ := collect_map_mem_right Fev a ha
      refine ⟨b, hb, m, hm, ?_⟩
      rcases hor with h | h
      · exact Or.inl (by rw [hkey, h])
      · exact Or.inr (by rw [hkey, h])
    · intro hleneq
      have hlc : (collectPairs R).length = R.length := by
        have h2 := Fev.length_eq
        have hleneq' : ((collectPairs R).map (fun p => (String.mk p.1, p.2))).length
            = e.values.length := hleneq
        rw [List.length_map] at hleneq'
        omega
      have hRR : collectPairs R = R := collect_eq_of_length R hlc
      show List.Forall₂ _ e.values
        ((collectPairs R).map (fun p => (String.mk p.1, p.2)))
      rw [hRR]
      refine forall₂_comp Fev (forall₂_map_right (fun p => (String.mk p.1, p.2)) R) ?_
      rintro a w b ⟨hsnd, m, hm, hor⟩ rfl
      exact ⟨hsnd, m, hm, hor⟩
    · intro f hf1
      have hle : f.values.length ≤ 1 := by omega
      simp [Enum.strip_common_prefix, hle]
    · intro f f' hnochunk hstrip'
      by_cases hl : f.values.length ≤ 1
      · simp only [Enum.strip_common_prefix, hl, if_true, ite_true] at hstrip'
        cases hstrip'
        refine ⟨?_, ?_, ?_⟩
        · exact fun b hb => ⟨b, hb, rfl, Or.inl rfl⟩
        · exact fun a ha => ⟨a, ha, Or.inl rfl⟩
        · exact fun _ => List.forall₂_same.mpr fun a _ => ⟨rfl, Or.inl rfl⟩
      · simp only [Enum.strip_common_prefix, hl, if_false, ite_false] at hstrip'
        have hbreak : loopBreakB (f.values.map (fun p => (p.1.toList, p.2))) = true := by
          cases hb : loopBreakB (f.values.map (fun p => (p.1.toList, p.2))) with
          | true => rfl
          | false =>
            obtain ⟨c0, hc0ne, hc0nu, hc0all⟩ := chunk_of_not_break _ hb
            exact absurd ⟨c0, hc0ne, hc0nu,
              fun p hp => hc0all (p.1.toList, p.2) (List.mem_map_of_mem _ hp)⟩ hnochunk
        rw [stripLoopFuel_of_break _ _ hbreak] at hstrip'
        cases hr' : rebuild (f.values.map (fun p => (p.1.toList, p.2))) with
        | none => rw [hr'] at hstrip'; cases hstrip'
        | some R' =>
          rw [hr'] at hstrip'
          cases hstrip'
          have F4 := rebuild_spec hr'
          have Fev' : List.Forall₂ (fun (a : String × Int) (w : List Char × Int) =>
              a.2 = w.2 ∧ (w.1 = a.1.toList ∨ w.1 = '_' :: a.1.toList))
              f.values R' := by
            refine forall₂_comp (forall₂_map_right (fun p => (p.1.toList, p.2)) f.values)
              F4 ?_
            rintro a x w rfl ⟨hsnd, hor, hnil⟩
            exact ⟨hsnd, hor⟩
          refine ⟨?_, ?_, ?_⟩
          · intro b hb
            obtain ⟨a, ha, hsnd, hor⟩ := collect_map_mem_left Fev' b hb
            refine ⟨a, ha, hsnd, ?_⟩
            rcases hor with h | h
            · exact Or.inl (String.ext h)
            · exact Or.inr h
          · intro a ha
            obtain ⟨b, hb, w, ⟨hsnd, hor⟩, hkey⟩ := collect_map_mem_right Fev' a ha
            refine ⟨b, hb, ?_⟩
            rcases hor with h | h
            · exact Or.inl (String.ext (hkey.trans h))
            · exact Or.inr (hkey.trans h)
          · intro hleneq
            have hlc : (collectPairs R').length = R'.length := by
              have h2 := Fev'.length_eq
              have hleneq' : ((collectPairs R').map (fun p => (String.mk p.1, p.2))).length
                  = f.values.length := hleneq
              rw [List.length_map] at hleneq'
              omega
            have hRR : collectPairs R' = R' := collect_eq_of_length R' hlc
            show List.Forall₂ _ f.values
              ((collectPairs R').map (fun p => (String.mk p.1, p.2)))
            rw [hRR]
            refine forall₂_comp Fev'
              (forall₂_map_right (fun p => (String.mk p.1, p.2)) R') ?_
            rintro a w b ⟨hsnd, hor⟩ rfl
            refine ⟨hsnd, ?_⟩
            rcases hor with h | h
            · exact Or.inl (String.ext h)
            · exact Or.inr h

theorem stripEnum_segment_spec_witness :
    ((['A', 'X', 'I', 'S'] : List Char) ≠ []
     ∧ '_' ∉ (['A', 'X', 'I', 'S'] : List Char)
     ∧ (∀ p ∈ ([("AXIS_0", 0), ("AXIS_1", 1)] : List (String × Int)),
          startsWithList (['A', 'X', 'I', 'S'] ++ ['_']) p.1.toList = true)
     ∧ Enum.strip_common_prefix ⟨"Axis", [("AXIS_0", 0), ("AXIS_1", 1)]⟩
         = some ⟨"Axis", [("_0", 0), ("_1", 1)]⟩)
    ∧ List.Forall₂
        (fun a b => a.2 = b.2 ∧ ∃ m, m <:+ a.1.toList.drop (['A', 'X', 'I', 'S'].length + 1)
          ∧ (b.1.toList = m ∨ b.1.toList = '_' :: m))
        ([("AXIS_0", 0), ("AXIS_1", 1)] : List (String × Int))
        ([("_0", 0), ("_1", 1)] : List (String × Int)) :=
  ⟨⟨by decide, by decide, by decide, by decide⟩,
   (stripEnum_segment_spec ⟨"Axis", [("AXIS_0", 0), ("AXIS_1", 1)]⟩
     ⟨"Axis", [("_0", 0), ("_1", 1)]⟩ ['A', 'X', 'I', 'S']
     (by decide) (by decide) (by decide) (by decide) (by decide)).2.2.1 (by decide)⟩

/-! ## Claim C4 (idempotence of the normalization passes) -/

theorem stripName_eq_self {s : String} (h : ∀ r, s.data ≠ '_' :: r) :
    stripName s = s := by
  unfold stripName
  split
  · next r heq => exact absurd heq (h r)
  · rfl

theorem stripName_data (s : String) (h : noDoubleUnd s = true) :
    ∀ r, (stripName s).data ≠ '_' :: r := by
  cases hs : s.data with
  | nil =>
    intro r
    have hself : stripName s = s :=
      stripName_eq_self (fun r' heq => by rw [hs] at heq; cases heq)
    rw [hself, hs]
    intro heq
    cases heq
  | cons ch rest =>
    by_cases hch : ch = '_'
    · subst hch
      have hstrip : stripName s = String.mk rest := stripName_eq_of_underscore hs
      rw [hstrip]
      intro r heq
      have hrr : rest = '_' :: r := heq
      have hs' : s.toList = '_' :: rest := hs
      unfold noDoubleUnd at h
      rw [hs', hrr] at h
      cases h
    · intro r heq
      have hself : stripName s = s := by
        apply stripName_eq_self
        intro r' heq'
        rw [hs] at heq'
        injection heq' with hh _
        exact hch hh
      rw [hself, hs] at heq
      injection heq with hh _
      exact hch hh

theorem stripName_stripName {s : String} (h : noDoubleUnd s = true) :
    stripName (stripName s) = stripName s :=
  stripName_eq_self (stripName_data s h)

theorem stripArg_idem (a : GodotArgument) (h : noDoubleUnd a.ty = true) :
    stripArg (stripArg a) = stripArg a := by
  simp [stripArg, stripName_stripName h]

theorem stripMethod_idem (m : GodotMethod) (h1 : noDoubleUnd m.return_type = true)
    (h2 : ∀ a ∈ m.arguments, noDoubleUnd a.ty = true) :
    stripMethod (stripMethod m) = stripMethod m := by
  have hargs : (m.arguments.map stripArg).map stripArg = m.arguments.map stripArg := by
    rw [List.map_map]
    apply List.map_congr_left
    intro a ha
    exact stripArg_idem a (h2 a ha)
  simp [stripMethod, stripName_stripName h1, hargs]

theorem stripOneClass_idem (c : GodotClass) (h1 : noDoubleUnd c.name = true)
    (h2 : ∀ m ∈ c.methods, noDoubleUnd m.return_type = true
      ∧ ∀ a ∈ m.arguments, noDoubleUnd a.ty = true) :
    stripOneClass (stripOneClass c) = stripOneClass c := by
  have hms : (c.methods.map stripMethod).map stripMethod = c.methods.map stripMethod := by
    rw [List.map_map]
    apply List.map_congr_left
    intro m hm
    exact stripMethod_idem m (h2 m hm).1 (h2 m hm).2
  simp [stripOneClass, stripName_stripName h1, hms]

theorem stripped_no_underscore (c : GodotClass) (h : noDoubleUnd c.name = true) :
    (match (stripOneClass c).name.toList with
      | '_' :: rest => some (String.mk rest)
      | _ => none) = (none : Option String) := by
  have hd := stripName_data c.name h
  show (match (stripName c.name).toList with
    | '_' :: rest => some (String.mk rest)
    | _ => none) = (none : Option String)
  cases hsd : (stripName c.name).toList with
  | nil => rfl
  | cons ch rest =>
    by_cases hch : ch = '_'
    · subst hch
      exact absurd hsd (hd rest)
    · simp [hch]

/-- The rebuild pass (digit prefixing) cannot re-create a strippable
common segment: it preserves the loop's break condition. -/
theorem break_of_rebuild (L R : List (List Char × Int))
    (hbr : loopBreakB L = true) (hr : rebuild L = some R) :
    loopBreakB R = true := by
  cases L with
  | nil =>
    simp only [rebuild] at hr
    cases hr
    rfl
  | cons p t =>
    obtain ⟨l0, x⟩ := p
    simp only [rebuild] at hr
    cases hd : digitFix l0 with
    | none => rw [hd] at hr; cases hr
    | some r0 =>
      cases hrt : rebuild t with
      | none => rw [hd, hrt] at hr; cases hr
      | some t' =>
        rw [hd, hrt] at hr
        cases hr
        cases l0 with
        | nil => simp [digitFix] at hd
        | cons ch chrest =>
          simp only [digitFix, Option.some.injEq] at hd
          subst hd
          by_cases hdig : ch.isDigit = true
          · rw [if_pos hdig]
            simp [loopBreakB, findUnd]
          · rw [if_neg hdig]
            cases hf : findUnd (ch :: chrest) with
            | none => simp [loopBreakB, hf]
            | some n =>
              cases n with
              | zero => simp [loopBreakB, hf]
              | succ i =>
                have hch : ¬ ch = '_' := by
                  intro hh
                  rw [findUnd, if_pos hh] at hf
                  cases hf
                simp only [loopBreakB, hf, Bool.not_eq_true'] at hbr
                simp only [loopBreakB, hf, Bool.not_eq_true']
                have hex : ∃ q ∈ ((ch :: chrest, x) :: t),
                    ¬ startsWithList ((ch :: chrest).take (i + 2)) q.1 = true := by
                  by_contra hno
                  push_neg at hno
                  have hall : ((ch :: chrest, x) :: t).all
                      (fun p => startsWithList ((ch :: chrest).take (i + 2)) p.1) = true :=
                    List.all_eq_true.mpr (fun q hq => hno q hq)
                  rw [hall] at hbr
                  cases hbr
                obtain ⟨q, hq, hqfail⟩ := hex
                have hpre : (ch :: chrest).take (i + 2) = ch :: chrest.take (i + 1) :=
                  List.take_succ_cons
                cases hallv : ((ch :: chrest, x) :: t').all
                    (fun p => startsWithList ((ch :: chrest).take (i + 2)) p.1) with
                | false => rfl
                | true =>
                  exfalso
                  have hmem := List.all_eq_true.mp hallv
                  rcases List.mem_cons.mp hq with rfl | hqt
                  · exact hqfail (hmem _ (List.mem_cons_self _ _))
                  · have hFt := rebuild_spec hrt
                    obtain ⟨w, hw, hsnd, hor, hqne⟩ := forall₂_mem_left hFt hqt
                    have hwstart := hmem w (List.mem_cons_of_mem _ hw)
                    rcases hor with hww | hww
                    · exact hqfail (by rw [← hww]; exact hwstart)
                    · rw [hww, hpre] at hwstart
                      simp [startsWithList, hch] at hwstart

/-- A successfully stripped enum is a fixpoint: running
`strip_common_prefix` again returns it unchanged. -/
theorem stripEnum_idem (e e' : Enum) (h : Enum.strip_common_prefix e = some e') :
    Enum.strip_common_prefix e' = some e' := by
  by_cases hl : e.values.length ≤ 1
  · simp only [Enum.strip_common_prefix, hl, if_true, ite_true] at h
    cases h
    simp [Enum.strip_common_prefix, hl]
  · simp only [Enum.strip_common_prefix, hl, if_false, ite_false] at h
    cases hr : rebuild (stripLoopFuel
        (((e.values.map (fun p => (p.1.toList, p.2))).headD ([], 0)).1.length)
        (e.values.map (fun p => (p.1.toList, p.2)))) with
    | none => rw [hr] at h; cases h
    | some R =>
      rw [hr] at h
      cases h
      have hpost := stripLoopFuel_post
        (((e.values.map (fun p => (p.1.toList, p.2))).headD ([], 0)).1.length)
        (e.values.map (fun p => (p.1.toList, p.2))) (Nat.le_refl _)
      have hbreakR : loopBreakB R = true := break_of_rebuild _ _ hpost hr
      have hbreakC : loopBreakB (collectPairs R) = true := break_collect R hbreakR
      have hfix : ∀ p ∈ collectPairs R, digitFix p.1 = some p.1 :=
        fun p hp => rebuild_entries_fixed hr p (collect_subset R p hp)
      have hreb : rebuild (collectPairs R) = some (collectPairs R) :=
        rebuild_of_fixed _ hfix
      simp only [Enum.strip_common_prefix]
      by_cases hl2 : ((collectPairs R).map (fun p => (String.mk p.1, p.2))).length ≤ 1
      · rw [if_pos hl2]
      · rw [if_neg hl2]
        have hvs0' : ((collectPairs R).map (fun p => (String.mk p.1, p.2))).map
            (fun p => (p.1.toList, p.2)) = collectPairs R := by
          rw [List.map_map]
          have hpt : ∀ y ∈ collectPairs R,
              ((fun p => (p.1.toList, p.2)) ∘ (fun p => (String.mk p.1, p.2))) y = id y :=
            fun y _ => rfl
          rw [List.map_congr_left hpt, List.map_id]
        rw [hvs0', stripLoopFuel_of_break _ _ hbreakC, hreb]
        simp only [collect_idem]

/-- Claim C4, counterexample: leading-underscore stripping is not
idempotent.  On a manifest with the single class `__Foo`, the first
pass yields `_Foo` (recording `_Foo` as was-private) and a second
application would strip again to `Foo` (and record `Foo`), so applying
the pass twice differs from applying it once. -/
theorem normalize_idempotent_counterexample :
    Api.strip_leading_underscores (Api.strip_leading_underscores api4c)
      ≠ Api.strip_leading_underscores api4c := by
  decide

/-- Claim C4, amended: the enum common-prefix pass is idempotent (a
successfully stripped enum is a fixpoint), and the leading-underscore
pass is idempotent provided no class name, method return type or
argument type begins with two underscores — it removes exactly one
underscore per application (see C10), so a doubly-underscored name such
as `__Foo` is changed again by a second application. -/
theorem normalize_idempotent_amended (api : Api)
    (h : ∀ c ∈ api.classes, noDoubleUnd c.name = true
      ∧ ∀ m ∈ c.methods, noDoubleUnd m.return_type = true
        ∧ ∀ a ∈ m.arguments, noDoubleUnd a.ty = true) :
    Api.strip_leading_underscores (Api.strip_leading_underscores api)
      = Api.strip_leading_underscores api
    ∧ ∀ (e e' : Enum), Enum.strip_common_prefix e = some e' →
        Enum.strip_common_prefix e' = some e' := by
  refine ⟨?_, fun e e' he => stripEnum_idem e e' he⟩
  simp only [Api.strip_leading_underscores]
  have hcls : (api.classes.map stripOneClass).map stripOneClass
      = api.classes.map stripOneClass := by
    rw [List.map_map]
    apply List.map_congr_left
    intro c hc
    exact stripOneClass_idem c (h c hc).1 (h c hc).2
  have hnil : (api.classes.map stripOneClass).filterMap (fun c =>
      match c.name.toList with
      | '_' :: rest => some (String.mk rest)
      | _ => none) = [] := by
    rw [List.filterMap_eq_nil_iff]
    intro x hx
    rcases List.mem_map.mp hx with ⟨c, hc, rfl⟩
    exact stripped_no_underscore c (h c hc).1
  rw [hcls, hnil, List.append_nil]

theorem normalize_idempotent_amended_witness :
    (∀ c ∈ api5.classes, noDoubleUnd c.name = true
      ∧ ∀ m ∈ c.methods, noDoubleUnd m.return_type = true
        ∧ ∀ a ∈ m.arguments, noDoubleUnd a.ty = true)
    ∧ Api.strip_leading_underscores (Api.strip_leading_underscores api5)
        = Api.strip_leading_underscores api5
    ∧ ∀ (e e' : Enum), Enum.strip_common_prefix e = some e' →
        Enum.strip_common_prefix e' = some e' :=
  ⟨by decide, normalize_idempotent_amended api5 (by decide)⟩

/-! ## Claim C10 (one underscore stripped per load) -/

/-- Claim C10: the leading-underscore pass removes exactly one
underscore per name: a class named with two leading underscores keeps
one after normalization, that still-underscored name is what enters the
was-private set, and method return types and argument types likewise
lose only their first leading underscore. -/
theorem strip_one_underscore_spec (api : Api) (c : GodotClass) (rest : List Char)
    (hc : c ∈ api.classes) (hname : c.name.toList = '_' :: '_' :: rest) :
    ((stripOneClass c).name.toList = '_' :: rest
     ∧ String.mk ('_' :: rest) ∈ (api.strip_leading_underscores).api_underscore)
    ∧ (∀ (m : GodotMethod) (r : List Char), m.return_type.toList = '_' :: '_' :: r →
        (stripMethod m).return_type.toList = '_' :: r)
    ∧ (∀ (a : GodotArgument) (r : List Char), a.ty.toList = '_' :: '_' :: r →
        (stripArg a).ty.toList = '_' :: r) := by
  refine ⟨⟨?_, ?_⟩, ?_, ?_⟩
  · show (stripName c.name).toList = '_' :: rest
    rw [stripName_eq_of_underscore hname]
    rfl
  · simp only [Api.strip_leading_underscores]
    apply List.mem_append_right
    refine List.mem_filterMap.mpr ⟨c, hc, ?_⟩
    have h' : c.name.data = '_' :: ('_' :: rest) := hname
    simp [h']
  · intro m r h
    show (stripName m.return_type).toList = '_' :: r
    rw [stripName_eq_of_underscore h]
    rfl
  · intro a r h
    show (stripName a.ty).toList = '_' :: r
    rw [stripName_eq_of_underscore h]
    rfl

/-! ## Claim C7 (lookup after underscore normalization) -/

theorem find?_map_strip (l : List GodotClass) (c : GodotClass) (target : String)
    (hc : c ∈ l) (hit : stripName c.name = target)
    (hmiss : ∀ c' ∈ l, c' ≠ c → stripName c'.name ≠ target) :
    (l.map stripOneClass).find? (fun k => k.name = target) = some (stripOneClass c) := by
  induction l with
  | nil => cases hc
  | cons a t ih =>
    simp only [List.map_cons]
    by_cases hac : a = c
    · subst hac
      refine List.find?_cons_of_pos _ ?_
      simp [stripOneClass]
      exact hit
    · have hneg : ¬ stripName a.name = target :=
        hmiss a (List.mem_cons_self a t) hac
      rw [List.find?_cons_of_neg _ (by simpa [stripOneClass] using hneg)]
      apply ih
      · rcases List.mem_cons.mp hc with h | h
        · exact absurd h.symm hac
        · exact h
      · exact fun c' hc' hne => hmiss c' (List.mem_cons_of_mem a hc') hne

theorem find?_map_strip_none (l : List GodotClass) (target : String)
    (hmiss : ∀ c' ∈ l, stripName c'.name ≠ target) :
    (l.map stripOneClass).find? (fun k => k.name = target) = none := by
  rw [List.find?_eq_none]
  intro x hx
  rcases List.mem_map.mp hx with ⟨c', hc', rfl⟩
  simp [stripOneClass]
  exact hmiss c' hc'

/-- Claim C7, counterexample: the claim's side condition ("no other
class bearing the stripped or original name") is too weak, because
another class can *strip to* the original name.  With raw classes
`_Foo` and `__Foo`, the second bears neither `Foo` nor `_Foo`, yet
after normalization it is named `_Foo`, so `find("_Foo")` succeeds
instead of failing. -/
theorem find_after_strip_counterexample :
    (mkClass "_Foo" "" false ∈ api7c.classes
     ∧ (mkClass "_Foo" "" false).name.toList = '_' :: "Foo".toList
     ∧ ∀ c' ∈ api7c.classes, c' ≠ mkClass "_Foo" "" false →
         c'.name ≠ "Foo" ∧ c'.name ≠ "_Foo")
    ∧ api7c.strip_leading_underscores.find_class "_Foo" ≠ none := by
  decide

/-- Claim C7, amended: for a class with a leading-underscore name such
that no *other* class's normalized name equals the stripped name or the
original name, after normalization `find(strippedName)` returns that
class (normalized), the stripped name is in the was-private set, and
`find(originalUnderscoredName)` returns none. -/
theorem find_after_strip_spec (api : Api) (c : GodotClass) (s : List Char)
    (hc : c ∈ api.classes) (hname : c.name.toList = '_' :: s)
    (hu : ∀ c' ∈ api.classes, c' ≠ c →
      stripName c'.name ≠ String.mk s ∧ stripName c'.name ≠ c.name) :
    (api.strip_leading_underscores).find_class (String.mk s) = some (stripOneClass c)
    ∧ String.mk s ∈ (api.strip_leading_underscores).api_underscore
    ∧ (api.strip_leading_underscores).find_class c.name = none := by
  have hstrip : stripName c.name = String.mk s := stripName_eq_of_underscore hname
  refine ⟨?_, ?_, ?_⟩
  · simp only [Api.find_class, Api.strip_leading_underscores]
    exact find?_map_strip api.classes c (String.mk s) hc hstrip
      (fun c' hc' hne => (hu c' hc' hne).1)
  · simp only [Api.strip_leading_underscores]
    apply List.mem_append_right
    refine List.mem_filterMap.mpr ⟨c, hc, ?_⟩
    have h' : c.name.data = '_' :: s := hname
    simp [h']
  · simp only [Api.find_class, Api.strip_leading_underscores]
    apply find?_map_strip_none
    intro c' hc'
    by_cases hne : c' = c
    · subst hne
      rw [hstrip]
      intro heq
      have hs : c'.name.toList = s := by rw [← heq]; rfl
      have hcontra : '_' :: s = s := by rw [← hname]; exact hs
      exact absurd hcontra (List.cons_ne_self '_' s)
    · exact (hu c' hc' hne).2

theorem find_after_strip_spec_witness :
    (mkClass "__Foo" "" false ∈ api4c.classes
     ∧ (mkClass "__Foo" "" false).name.toList = '_' :: "_Foo".toList)
    ∧ (api4c.strip_leading_underscores.find_class (String.mk "_Foo".toList)
         = some (stripOneClass (mkClass "__Foo" "" false))
       ∧ String.mk "_Foo".toList ∈ api4c.strip_leading_underscores.api_underscore
       ∧ api4c.strip_leading_underscores.find_class (mkClass "__Foo" "" false).name
           = none) :=
  ⟨⟨by decide, by decide⟩,
   find_after_strip_spec api4c (mkClass "__Foo" "" false) "_Foo".toList
     (by decide) (by decide) (by decide)⟩

theorem strip_one_underscore_spec_witness :
    (mkClass "__Foo" "" false ∈ api4c.classes
     ∧ (mkClass "__Foo" "" false).name.toList = '_' :: '_' :: "Foo".toList)
    ∧ ((stripOneClass (mkClass "__Foo" "" false)).name.toList = '_' :: "Foo".toList
       ∧ String.mk ('_' :: "Foo".toList) ∈ api4c.strip_leading_underscores.api_underscore) :=
  ⟨⟨by decide, by decide⟩,
   (strip_one_underscore_spec api4c (mkClass "__Foo" "" false) "Foo".toList
     (by decide) (by decide)).1⟩

/-! ## Fuel adequacy

The two fuel-indexed definitions stand for unbounded Rust recursions.
The theorems below certify the fuel choices: the strip loop is unchanged
by any extra fuel beyond the first variant name's length, and
`fromSrcAux` is unchanged by any fuel beyond 2, so `Ty.from_src` and
`Enum.strip_common_prefix` compute exactly what the source's unbounded
recursions would. -/

theorem stripLoopFuel_nil (k : Nat) : stripLoopFuel k [] = [] := by
  cases k <;> rfl

theorem stripLoopFuel_stable (fuel : Nat) :
    ∀ (vs : List (List Char × Int)) (extra : Nat),
      (vs.headD ([], 0)).1.length ≤ fuel →
      stripLoopFuel (fuel + extra) vs = stripLoopFuel fuel vs := by
  induction fuel with
  | zero =>
    intro vs extra h
    cases vs with
    | nil => rw [stripLoopFuel_nil, stripLoopFuel_nil]
    | cons p t =>
      obtain ⟨v0, x⟩ := p
      simp only [List.headD_cons] at h
      have hv0 : v0 = [] := List.eq_nil_of_length_eq_zero (Nat.le_zero.mp h)
      subst hv0
      have hb : loopBreakB (([], x) :: t) = true := rfl
      rw [stripLoopFuel_of_break _ _ hb, stripLoopFuel_of_break _ _ hb]
  | succ f ih =>
    intro vs extra h
    cases vs with
    | nil => rw [stripLoopFuel_nil, stripLoopFuel_nil]
    | cons p t =>
      obtain ⟨v0, x⟩ := p
      simp only [List.headD_cons] at h
      cases hf : findUnd v0 with
      | none =>
        have hb : loopBreakB ((v0, x) :: t) = true := by simp [loopBreakB, hf]
        rw [stripLoopFuel_of_break _ _ hb, stripLoopFuel_of_break _ _ hb]
      | some n =>
        cases n with
        | zero =>
          have hb : loopBreakB ((v0, x) :: t) = true := by simp [loopBreakB, hf]
          rw [stripLoopFuel_of_break _ _ hb, stripLoopFuel_of_break _ _ hb]
        | succ i =>
          cases hall : ((v0, x) :: t).all
              (fun p => startsWithList (v0.take (i + 2)) p.1) with
          | false =>
            have hb : loopBreakB ((v0, x) :: t) = true := by
              simp [loopBreakB, hf, hall]
            rw [stripLoopFuel_of_break _ _ hb, stripLoopFuel_of_break _ _ hb]
          | true =>
            have hstep1 : stripLoopFuel (f + 1 + extra) ((v0, x) :: t)
                = stripLoopFuel (f + extra)
                    (((v0, x) :: t).map (fun p => (p.1.drop (i + 2), p.2))) := by
              rw [show f + 1 + extra = (f + extra) + 1 by omega]
              simp [stripLoopFuel, hf, hall]
            have hstep2 : stripLoopFuel (f + 1) ((v0, x) :: t)
                = stripLoopFuel f
                    (((v0, x) :: t).map (fun p => (p.1.drop (i + 2), p.2))) := by
              simp [stripLoopFuel, hf, hall]
            rw [hstep1, hstep2]
            apply ih
            have hlt : i + 1 < v0.length := findUnd_lt_length hf
            simp only [List.map_cons, List.headD_cons, List.length_drop]
            omega

theorem noSep_reverse {l : List Char} (h : NoSep l) : NoSep l.reverse := by
  rw [NoSep, List.chain'_reverse]
  exact List.Chain'.imp (fun a b hab hba => hab ⟨hba.2, hba.1⟩) h

theorem noSep_drop (l : List Char) (n : Nat) (h : NoSep l) : NoSep (l.drop n) := by
  induction n generalizing l with
  | zero => exact h
  | succ m ih =>
    cases l with
    | nil => exact h
    | cons c rest => exact ih rest (List.Chain'.tail h)

theorem splitColonsAux_cons₂ (acc : List Char) (c d : Char) (rest : List Char)
    (h : ¬(c = ':' ∧ d = ':')) :
    splitColonsAux acc (c :: d :: rest) = splitColonsAux (c :: acc) (d :: rest) := by
  simp only [splitColonsAux]
  rw [if_neg (by simp only [Bool.and_eq_true, decide_eq_true_eq]; exact h)]

theorem splitColonsAux_noSep_all :
    ∀ (n : Nat) (l acc : List Char), l.length ≤ n → NoSep acc →
      (∀ t, acc = ':' :: t → l.head? ≠ some ':') →
      ∀ p ∈ splitColonsAux acc l, NoSep p := by
  intro n
  induction n with
  | zero =>
    intro l acc hlen hacc hjoin p hp
    have hl : l = [] := List.eq_nil_of_length_eq_zero (Nat.le_zero.mp hlen)
    subst hl
    simp only [splitColonsAux, List.mem_singleton] at hp
    subst hp
    exact noSep_reverse hacc
  | succ m ih =>
    intro l acc hlen hacc hjoin p hp
    rcases l with _ | ⟨c, l'⟩
    · simp only [splitColonsAux, List.mem_singleton] at hp
      subst hp
      exact noSep_reverse hacc
    rcases l' with _ | ⟨d, rest⟩
    · simp only [splitColonsAux, List.mem_singleton] at hp
      subst hp
      apply noSep_reverse
      rw [NoSep, List.chain'_cons']
      refine ⟨?_, hacc⟩
      intro b hb hcb
      obtain ⟨t, ht⟩ : ∃ t, acc = b :: t := by
        cases acc with
        | nil => cases hb
        | cons a t =>
          simp only [List.head?_cons, Option.mem_def, Option.some.injEq] at hb
          exact ⟨t, by rw [hb]⟩
      exact hjoin t (by rw [ht, hcb.2]) (by simp [hcb.1])
    by_cases hcd : c = ':' ∧ d = ':'
    · obtain ⟨rfl, rfl⟩ := hcd
      simp only [splitColonsAux] at hp
      rcases List.mem_cons.mp hp with rfl | hp'
      · exact noSep_reverse hacc
      · refine ih rest [] ?_ List.chain'_nil (fun t ht => by cases ht) p hp'
        simp only [List.length_cons] at hlen
        omega
    · rw [splitColonsAux_cons₂ acc c d rest hcd] at hp
      refine ih (d :: rest) (c :: acc) ?_ ?_ ?_ p hp
      · simp only [List.length_cons] at hlen ⊢
        omega
      · rw [NoSep, List.chain'_cons']
        refine ⟨?_, hacc⟩
        intro b hb hcb
        obtain ⟨t, ht⟩ : ∃ t, acc = b :: t := by
          cases acc with
          | nil => cases hb
          | cons a t =>
            simp only [List.head?_cons, Option.mem_def, Option.some.injEq] at hb
            exact ⟨t, by rw [hb]⟩
        exact hjoin t (by rw [ht, hcb.2]) (by simp [hcb.1])
      · intro t ht
        injection ht with h1 _
        simp only [List.head?_cons, ne_eq, Option.some.injEq]
        intro hd
        exact hcd ⟨h1, hd⟩

theorem splitColons_noSep (l : List Char) :
    ∀ p ∈ splitColons l, NoSep p :=
  splitColonsAux_noSep_all l.length l [] (Nat.le_refl _) List.chain'_nil
    (fun t ht => by cases ht)

theorem splitColonsAux_of_noSep :
    ∀ (n : Nat) (l acc : List Char), l.length ≤ n → NoSep l →
      splitColonsAux acc l = [acc.reverse ++ l] := by
  intro n
  induction n with
  | zero =>
    intro l acc hlen _
    have hl : l = [] := List.eq_nil_of_length_eq_zero (Nat.le_zero.mp hlen)
    subst hl
    simp [splitColonsAux]
  | succ m ih =>
    intro l acc hlen hnc
    rcases l with _ | ⟨c, l'⟩
    · simp [splitColonsAux]
    rcases l' with _ | ⟨d, rest⟩
    · simp [splitColonsAux]
    by_cases hcd : c = ':' ∧ d = ':'
    · obtain ⟨rfl, rfl⟩ := hcd
      rw [NoSep, List.chain'_cons] at hnc
      exact absurd ⟨rfl, rfl⟩ hnc.1
    · rw [splitColonsAux_cons₂ acc c d rest hcd]
      rw [ih (d :: rest) (c :: acc)
        (by simp only [List.length_cons] at hlen ⊢; omega) (List.Chain'.tail hnc)]
      simp

theorem noSep_split (l : List Char) (h : NoSep l) : splitColons l = [l] := by
  rw [splitColons, splitColonsAux_of_noSep l.length l [] (Nat.le_refl _) h]
  simp

/-- One-layer unfolding equation for `fromSrcAux` (used to control
unfolding depth in the stability proofs). -/
theorem fromSrcAux_succ (fuel : Nat) (src : String) :
    fromSrcAux (fuel + 1) src =
      (match builtinTable.lookup src with
      | some t => some t
      | none =>
        if startsWithList "enum.".toList src.toList then
          match splitColons (src.toList.drop 5) with
          | class_name :: variant :: _ =>
            let name := to_camel_case (String.mk variant)
            let module := to_snake_case (String.mk class_name)
            if is_rust_ident name && is_rust_ident module then
              match fromSrcAux fuel (String.mk class_name) with
              | some (Ty.Enum _) => some (Ty.Enum ["crate", "generated", module, name])
              | some (Ty.Object _) => some (Ty.Enum ["crate", "generated", module, name])
              | some _ => some (Ty.Enum [module, name])
              | none => none
            else none
          | _ => none
        else
          let module := to_snake_case src
          if is_rust_ident module && is_rust_ident src then
            some (Ty.Object ["crate", "generated", module, src])
          else none) := rfl

/-- On a string with no `::`, the result of `fromSrcAux` does not
depend on the fuel, as long as there is at least one unit of it: the
recursive arm needs at least two `::`-separated pieces. -/
theorem fromSrcAux_one (m : Nat) (t : String) (hnc : NoSep t.toList) :
    fromSrcAux (m + 1) t = fromSrcAux 1 t := by
  show fromSrcAux (m + 1) t = fromSrcAux (0 + 1) t
  have h5 : NoSep (t.toList.drop 5) := noSep_drop _ _ hnc
  have hsplit : splitColons (t.toList.drop 5) = [t.toList.drop 5] :=
    noSep_split _ h5
  rw [fromSrcAux_succ m t, fromSrcAux_succ 0 t, hsplit]

/-- `Ty.from_src`'s fuel of 2 is exact: any further fuel gives the same
answer, because the recursive call is on a `::`-free piece. -/
theorem fromSrcAux_fuel_stable (n : Nat) (s : String) :
    fromSrcAux (n + 2) s = fromSrcAux 2 s := by
  show fromSrcAux ((n + 1) + 1) s = fromSrcAux (1 + 1) s
  rw [fromSrcAux_succ (n + 1) s, fromSrcAux_succ 1 s]
  cases hlk : builtinTable.lookup s with
  | some t => rfl
  | none =>
    by_cases he : startsWithList "enum.".toList s.toList = true
    · rw [if_pos he, if_pos he]
      cases hsp : splitColons (s.toList.drop 5) with
      | nil => rfl
      | cons c tail =>
        cases tail with
        | nil => rfl
        | cons v rest =>
          have hcnc : NoSep c :=
            splitColons_noSep (s.toList.drop 5) c
              (by rw [hsp]; exact List.mem_cons_self _ _)
          have hinner : fromSrcAux (n + 1) (String.mk c) = fromSrcAux 1 (String.mk c) :=
            fromSrcAux_one n (String.mk c) hcnc
          dsimp only
          rw [hinner]
    · rw [if_neg he, if_neg he]

theorem from_src_fuel_stable (n : Nat) (s : String) :
    fromSrcAux (n + 2) s = Ty.from_src s :=
  fromSrcAux_fuel_stable n s

end Godot
